import Mathlib

/-!
Verification development for the page-audit engine in src/main.py of the
seo-descriptions repository.  Python strings are modelled as lists of
characters; the parts of Python's urllib.parse library that the script
exercises (urlparse/urlsplit, urljoin, urldefrag, urlunparse) are embedded
faithfully following CPython's Lib/urllib/parse.py; exceptions are modelled
with Except.  Network effects are modelled by explicit oracles
(functions from URL to response), and the asyncio interleaving relevant to
the shared link-status cache is modelled by an explicit event scheduler.
-/

namespace SeoAudit

/-- Python strings are modelled as lists of characters. -/
abbrev Str := List Char

/-- Conversion from Lean string literals to the model type. -/
def str (s : String) : Str := s.data

/-- The ASCII whitespace characters recognised by Python's str.strip(). -/
def isPySpace (c : Char) : Bool :=
  c == ' ' || c == '\t' || c == '\n' || c == '\r' || c == '\x0b' || c == '\x0c'

/-- Python str.lstrip() with no argument. -/
def pyLStrip (s : Str) : Str := s.dropWhile isPySpace

/-- Python str.rstrip() with no argument. -/
def pyRStrip (s : Str) : Str := (s.reverse.dropWhile isPySpace).reverse

/-- Python str.strip() with no argument. -/
def pyStrip (s : Str) : Str := pyRStrip (pyLStrip s)

/-- Python str.lower() (ASCII case folding, as used on ASCII URLs). -/
def lowerStr (s : Str) : Str := s.map Char.toLower

/-- Python str.split() with no argument: split on whitespace runs, dropping
empty pieces. -/
def pySplitWsAux : Str → Str → List Str
  | [], acc => if acc = [] then [] else [acc.reverse]
  | c :: cs, acc =>
      if isPySpace c then
        if acc = [] then pySplitWsAux cs [] else acc.reverse :: pySplitWsAux cs []
      else pySplitWsAux cs (c :: acc)

/-- Python str.split() with no argument. -/
def pySplitWs (s : Str) : List Str := pySplitWsAux s []

/-- Python " ".join(pieces). -/
def joinSpace : List Str → Str
  | [] => []
  | [x] => x
  | x :: xs => x ++ ' ' :: joinSpace xs

/-- collapse_whitespace from src/main.py: " ".join(text.split()). -/
def collapse_whitespace (text : Str) : Str := joinSpace (pySplitWs text)

/-! ## Embedding of the used parts of Python's urllib.parse -/

/-- Characters allowed in a URL scheme (CPython scheme_chars). -/
def schemeChar (c : Char) : Bool :=
  c.isAlpha || c.isDigit || c == '+' || c == '-' || c == '.'

/-- The sanitization CPython's urlsplit applies before parsing: strip leading
C0-control-or-space characters, then remove every tab, CR and LF. -/
def sanitizeUrl (s : Str) : Str :=
  (s.dropWhile (fun c => c.toNat ≤ 32)).filter
    (fun c => !(c == '\t' || c == '\r' || c == '\n'))

/-- Scheme detection of CPython's urlsplit: the prefix before the first colon
is the scheme when it is nonempty, starts with an ASCII letter and consists of
scheme characters only; otherwise the caller-provided default scheme is used
and the URL is left intact. -/
def splitScheme (defaultScheme : Str) (url : Str) : Str × Str :=
  match url.findIdx? (· == ':') with
  | some i =>
      if 0 < i && (url.take i).all schemeChar &&
          ((url.head?.map Char.isAlpha).getD false) then
        (lowerStr (url.take i), url.drop (i + 1))
      else (defaultScheme, url)
  | none => (defaultScheme, url)

/-- CPython _splitnetloc with start = 2: the netloc runs from just after the
leading "//" to the first of '/', '?' or '#'. -/
def splitNetloc (url : Str) : Str × Str :=
  let rest := url.drop 2
  (rest.takeWhile (fun c => !(c == '/' || c == '?' || c == '#')),
   rest.dropWhile (fun c => !(c == '/' || c == '?' || c == '#')))

/-- Result of urlsplit: scheme, netloc, path, query, fragment. -/
structure SplitResult where
  scheme : Str
  netloc : Str
  path : Str
  query : Str
  fragment : Str
deriving DecidableEq, Repr

/-- The shared tail of CPython's urlsplit: split off the fragment at the
first '#' (allow_fragments = True), then the query at the first '?', and
assemble the result. -/
def splitFragQuery (scheme netloc url : Str) : SplitResult :=
  let fr :=
    if url.contains '#' then
      (url.takeWhile (· ≠ '#'), (url.dropWhile (· ≠ '#')).drop 1)
    else (url, [])
  let qr :=
    if fr.1.contains '?' then
      (fr.1.takeWhile (· ≠ '?'), (fr.1.dropWhile (· ≠ '?')).drop 1)
    else (fr.1, [])
  ⟨scheme, netloc, qr.1, qr.2, fr.2⟩

/-- Model of CPython's _checknetloc.  CPython returns immediately when the
netloc is empty or all-ASCII (str.isascii), and otherwise raises ValueError
when the NFKC normalization of the netloc introduces one of '/?#@:'.  NFKC
normalization is outside this model, so the model accepts exactly the empty
and all-ASCII netlocs, on which it agrees with CPython, and conservatively
rejects every other netloc: wherever this check passes, CPython's check
passes too. -/
def checknetlocOk (netloc : Str) : Bool :=
  netloc.all (fun c => c.toNat ≤ 127)

/-- Model of CPython's urlsplit (allow_fragments = True, as at every call
site of the script).  ValueError is modelled by Except.error, with three
sources as in CPython: a netloc with an unmatched square bracket (Invalid
IPv6 URL); a netloc with a matched bracket pair, whose bracketed host
CPython 3.11+ validates as an IPv6/IPvFuture literal
(_check_bracketed_host) — ip-literal syntax is outside this model, which
conservatively rejects every bracketed host; and _checknetloc, modelled by
checknetlocOk.  The branch without the "//" prefix reaches _checknetloc
with the empty netloc, which passes, so no check is modelled there.
Wherever this model
returns ok, CPython's urlsplit returns the same components. -/
def urlsplitE (defaultScheme : Str) (url0 : Str) : Except Unit SplitResult :=
  let url := sanitizeUrl url0
  let sp := splitScheme defaultScheme url
  if (str "//").isPrefixOf sp.2 then
    let n := (splitNetloc sp.2).1
    if (n.contains '[' && !n.contains ']') ||
       (n.contains ']' && !n.contains '[') then Except.error ()
    else if n.contains '[' && n.contains ']' then Except.error ()
    else if !checknetlocOk n then Except.error ()
    else Except.ok (splitFragQuery sp.1 n (splitNetloc sp.2).2)
  else Except.ok (splitFragQuery sp.1 [] sp.2)

/-- Result of urlparse: urlsplit plus the params component. -/
structure ParseResult where
  scheme : Str
  netloc : Str
  path : Str
  params : Str
  query : Str
  fragment : Str
deriving DecidableEq, Repr

/-- CPython uses_params. -/
def usesParams : List Str :=
  [[], str "ftp", str "hdl", str "prospero", str "http", str "imap",
   str "https", str "shttp", str "rtsp", str "rtspu", str "sip",
   str "sips", str "mms", str "sftp", str "tel"]

/-- Index of the last occurrence of a character (Python str.rfind). -/
def rfindIdx (c : Char) (l : Str) : Option Nat :=
  (l.reverse.findIdx? (· == c)).map (fun k => l.length - 1 - k)

/-- Index of the first occurrence of a character at or after start
(Python str.find with a start argument). -/
def findIdxFrom (c : Char) (start : Nat) (l : Str) : Option Nat :=
  ((l.drop start).findIdx? (· == c)).map (· + start)

/-- CPython _splitparams: split the params off the last path segment. -/
def splitParams (url : Str) : Str × Str :=
  let iOpt :=
    if url.contains '/' then findIdxFrom ';' ((rfindIdx '/' url).getD 0) url
    else url.findIdx? (· == ';')
  match iOpt with
  | none => (url, [])
  | some i => (url.take i, url.drop (i + 1))

/-- Model of CPython's urlparse. -/
def urlparseE (defaultScheme : Str) (url : Str) : Except Unit ParseResult :=
  match urlsplitE defaultScheme url with
  | Except.error e => Except.error e
  | Except.ok s =>
      if usesParams.contains s.scheme && s.path.contains ';' then
        Except.ok ⟨s.scheme, s.netloc, (splitParams s.path).1,
                   (splitParams s.path).2, s.query, s.fragment⟩
      else Except.ok ⟨s.scheme, s.netloc, s.path, [], s.query, s.fragment⟩

/-- Model of CPython's urlunsplit. -/
def urlunsplit (scheme netloc path query fragment : Str) : Str :=
  let url := path
  let url :=
    if netloc ≠ [] ∨ (url ≠ [] ∧ (str "//").isPrefixOf url) then
      str "//" ++ netloc ++ (if url ≠ [] ∧ url.take 1 ≠ str "/" then '/' :: url else url)
    else url
  let url := if scheme ≠ [] then scheme ++ ':' :: url else url
  let url := if query ≠ [] then url ++ '?' :: query else url
  if fragment ≠ [] then url ++ '#' :: fragment else url

/-- Model of CPython's urlunparse. -/
def urlunparse (r : ParseResult) : Str :=
  let url := if r.params ≠ [] then r.path ++ ';' :: r.params else r.path
  urlunsplit r.scheme r.netloc url r.query r.fragment

/-- CPython uses_relative. -/
def usesRelative : List Str :=
  [[], str "ftp", str "http", str "gopher", str "nntp", str "imap",
   str "wais", str "file", str "https", str "shttp", str "mms",
   str "prospero", str "rtsp", str "rtspu", str "sftp", str "svn",
   str "svn+ssh", str "ws", str "wss"]

/-- CPython uses_netloc. -/
def usesNetloc : List Str :=
  [[], str "ftp", str "http", str "gopher", str "nntp", str "telnet",
   str "imap", str "wais", str "file", str "mms", str "https", str "shttp",
   str "snews", str "prospero", str "rtsp", str "rtspu", str "rsync",
   str "svn", str "svn+ssh", str "sftp", str "nfs", str "git",
   str "git+ssh", str "ws", str "wss"]

/-- Python path.split('/') (auxiliary, accumulating the current piece
reversed). -/
def splitSlashAux : Str → Str → List Str
  | [], acc => [acc.reverse]
  | c :: cs, acc =>
      if c = '/' then acc.reverse :: splitSlashAux cs []
      else splitSlashAux cs (c :: acc)

/-- Python path.split('/'). -/
def splitSlash (s : Str) : List Str := splitSlashAux s []

/-- Python "/".join(parts). -/
def joinSlash : List Str → Str
  | [] => []
  | [x] => x
  | x :: xs => x ++ '/' :: joinSlash xs

/-- The statement segments[1:-1] = filter(None, segments[1:-1]) of CPython's
urljoin: drop empty segments from the middle, keeping the first and last. -/
def filterMiddle : List Str → List Str
  | [] => []
  | [x] => [x]
  | x :: y :: ys =>
      x :: (((y :: ys).dropLast).filter (fun s => s ≠ [])) ++ [(y :: ys).getLastD []]

/-- The segment-resolution loop of CPython's urljoin: '..' pops the last
resolved segment (popping an empty list is a no-op), '.' is skipped,
anything else is appended. -/
def resolveSegments : List Str → List Str → List Str
  | [], acc => acc
  | seg :: rest, acc =>
      if seg = str ".." then
        resolveSegments rest (if acc = [] then acc else acc.dropLast)
      else if seg = str "." then resolveSegments rest acc
      else resolveSegments rest (acc ++ [seg])

/-- The relative-path merge of CPython's urljoin: drop the last segment of
the base path, join with the (possibly relative) url path, filter empty
middle segments for relative paths, resolve '.' and '..', and re-join. -/
def joinPaths (bpath upath : Str) : Str :=
  let baseParts := splitSlash bpath
  let baseParts :=
    if baseParts.getLastD [] ≠ [] then baseParts.dropLast else baseParts
  let segments :=
    if upath.take 1 = str "/" then splitSlash upath
    else filterMiddle (baseParts ++ splitSlash upath)
  let resolved := resolveSegments segments []
  let resolved :=
    if segments.getLastD [] = str "." ∨ segments.getLastD [] = str ".." then
      resolved ++ [[]]
    else resolved
  let joined := joinSlash resolved
  if joined = [] then str "/" else joined

/-- Model of CPython's urljoin (allow_fragments = True). -/
def urljoinE (base url : Str) : Except Unit Str :=
  if base = [] then Except.ok url
  else if url = [] then Except.ok base
  else
    match urlparseE [] base with
    | Except.error e => Except.error e
    | Except.ok b =>
    match urlparseE b.scheme url with
    | Except.error e => Except.error e
    | Except.ok u =>
    if u.scheme ≠ b.scheme ∨ ¬ usesRelative.contains u.scheme then
      Except.ok url
    else if usesNetloc.contains u.scheme ∧ u.netloc ≠ [] then
      Except.ok (urlunparse u)
    else
      let netloc :=
        if usesNetloc.contains u.scheme && u.netloc.isEmpty then b.netloc
        else u.netloc
      if u.path = [] ∧ u.params = [] then
        let query := if u.query = [] then b.query else u.query
        Except.ok (urlunparse ⟨u.scheme, netloc, b.path, b.params, query, u.fragment⟩)
      else
        Except.ok (urlunparse ⟨u.scheme, netloc, joinPaths b.path u.path,
                               u.params, u.query, u.fragment⟩)

/-- Model of CPython's urldefrag: when a '#' is present, reparse and
reassemble without the fragment; otherwise the URL is returned unchanged. -/
def urldefragE (url : Str) : Except Unit (Str × Str) :=
  if url.contains '#' then
    match urlparseE [] url with
    | Except.error e => Except.error e
    | Except.ok p =>
        Except.ok (urlunparse ⟨p.scheme, p.netloc, p.path, p.params, p.query, []⟩,
                   p.fragment)
  else Except.ok (url, [])

/-! ## Data model of src/main.py -/

/-- SourceRow from src/main.py: the raw URL as read from the CSV, the
absolutized URL used for fetching, and the optional SEO description. -/
structure SourceRow where
  raw_url : Str
  absolute_url : Str
  seo_description : Option Str := none
deriving DecidableEq, Repr

/-- Issue from src/main.py. -/
structure Issue where
  url : Str
  issue_type : Str
  snippet : Str
deriving DecidableEq, Repr

/-- PageLink from src/main.py. -/
structure PageLink where
  raw : Str
  absolute : Str
  host : Str
  anchor_text : Str
  was_absolute : Bool
deriving DecidableEq, Repr

/-- An anchor element of the parsed page body: its optional href attribute
(BeautifulSoup's anchor.get returns None when absent) and its visible text
as returned by get_text. -/
structure Anchor where
  href : Option Str
  text : Str
deriving DecidableEq, Repr

/-- DEV_PROD_HOSTS from src/main.py. -/
def DEV_PROD_HOSTS : List Str :=
  [str "lla-drupal-app-prod.salmonground-819df123.australiaeast.azurecontainerapps.io",
   str "lla-drupal-app-uat.victoriouspond-08331c17.australiaeast.azurecontainerapps.io",
   str "example.com"]

/-- BLOCKED_LIFELINE_HOSTS from src/main.py. -/
def BLOCKED_LIFELINE_HOSTS : List Str :=
  [str "lifeline.org.au", str "www.lifeline.org.au", str "toolkit.lifeline.org.au"]

/-- MAX_PLACEHOLDER_MATCHES from src/main.py. -/
def MAX_PLACEHOLDER_MATCHES : Nat := 20

/-- PLACEHOLDER_CONTEXT from src/main.py. -/
def PLACEHOLDER_CONTEXT : Nat := 80

/-- EXCLUDED_HREF_PREFIXES from src/main.py. -/
def EXCLUDED_HREF_PREFIXES : List Str :=
  [str "mailto:", str "tel:", str "javascript:", str "data:", str "#"]

/-- Decimal rendering of a number, as Python str(n) for Nat. -/
def natToStr (n : Nat) : Str := (toString n).data

/-! ## Snippets -/

/-- trim_snippet from src/main.py: text unchanged when within the limit,
otherwise the first limit - 3 characters, right-stripped, plus "...". -/
def trim_snippet (text : Str) (limit : Nat := 200) : Str :=
  if text.length ≤ limit then text
  else pyRStrip (text.take (limit - 3)) ++ str "..."

/-- link_snippet from src/main.py. -/
def link_snippet (link : PageLink) (extra : Option Str := none) : Str :=
  let text := if link.anchor_text ≠ [] then link.anchor_text else str "<no text>"
  let target := if link.raw ≠ [] then link.raw else link.absolute
  let snippet := '"' :: text ++ str "\" -> " ++ target
  let snippet :=
    match extra with
    | some e => snippet ++ str " (" ++ e ++ str ")"
    | none => snippet
  trim_snippet snippet

/-! ## Link resolver and extractor -/

/-- resolve_href from src/main.py.  The Except layer models the ValueError
that urllib's parser can raise; Except.ok none models rejection (the
function returning None). -/
def resolve_href (base_url href : Str) : Except Unit (Option (Str × Str × Bool)) :=
  let trimmed := pyStrip href
  if trimmed = [] then Except.ok none
  else
    let lowered := lowerStr trimmed
    if EXCLUDED_HREF_PREFIXES.any (fun p => p.isPrefixOf lowered) then Except.ok none
    else
      let targetStep : Except Unit (Str × Bool) :=
        if (str "//").isPrefixOf trimmed then
          Except.ok (str "https:" ++ trimmed, true)
        else
          match urlparseE [] trimmed with
          | Except.error e => Except.error e
          | Except.ok p =>
              match urljoinE base_url trimmed with
              | Except.error e => Except.error e
              | Except.ok t => Except.ok (t, !p.netloc.isEmpty)
      match targetStep with
      | Except.error e => Except.error e
      | Except.ok (target, was_absolute) =>
          match urldefragE target with
          | Except.error e => Except.error e
          | Except.ok (target2, _) =>
              match urlparseE [] target2 with
              | Except.error e => Except.error e
              | Except.ok parsed =>
                  Except.ok (some (target2, lowerStr parsed.netloc, was_absolute))

/-- The anchor loop of extract_page_links: anchors without an href (or with
an empty one) are skipped, rejected hrefs are skipped, and each remaining
anchor yields a PageLink whose host falls back to the page's host when the
resolved host is empty. -/
def extractLinksGo (base_url base_host : Str) : List Anchor → Except Unit (List PageLink)
  | [] => Except.ok []
  | a :: rest =>
      match a.href with
      | none => extractLinksGo base_url base_host rest
      | some h =>
          if h = [] then extractLinksGo base_url base_host rest
          else
            match resolve_href base_url h with
            | Except.error e => Except.error e
            | Except.ok none => extractLinksGo base_url base_host rest
            | Except.ok (some (absolute, host, wa)) =>
                match extractLinksGo base_url base_host rest with
                | Except.error e => Except.error e
                | Except.ok links =>
                    Except.ok ({ raw := pyStrip h
                                 absolute := absolute
                                 host := if host ≠ [] then host else base_host
                                 anchor_text := collapse_whitespace a.text
                                 was_absolute := wa } :: links)

/-- extract_page_links from src/main.py, over the anchors of the audited
container (the DOM walk of BeautifulSoup is the external collaborator that
supplies the anchor list in document order). -/
def extract_page_links (anchors : List Anchor) (base_url : Str) :
    Except Unit (List PageLink) :=
  match urlparseE [] base_url with
  | Except.error e => Except.error e
  | Except.ok pb => extractLinksGo base_url (lowerStr pb.netloc) anchors

/-! ## Page fetcher -/

/-- What one HTTP GET of a URL produces: a response with a status code and a
body, or a transport failure (httpx.HTTPError) with a message. -/
inductive HttpResult where
  | response (status : Nat) (body : Str)
  | transportError (msg : Str)
deriving DecidableEq, Repr

/-- fetch_page from src/main.py, as a function of the GET outcome: the
classification triple (status tag, optional body, optional error reason). -/
def fetch_page : HttpResult → Str × Option Str × Option Str
  | HttpResult.transportError msg => (str "error", none, some msg)
  | HttpResult.response s body =>
      if s = 404 then (str "404", none, none)
      else if 200 ≤ s ∧ s < 300 then (str "OK", some body, none)
      else (str "error", none, some (str "status " ++ natToStr s))

/-! ## Link status cache -/

/-- The shared link-status cache: URL to Option status (None recorded for a
transport failure).  Python-dict assignment is modelled by consing, so the
most recent binding wins on lookup. -/
abbrev Cache := List (Str × Option Nat)

/-- Lookup in the cache; some v means the key is present with value v. -/
def cacheLookup (cache : Cache) (url : Str) : Option (Option Nat) :=
  List.lookup url cache

/-- Store a value in the cache (Python cache[url] = value). -/
def cacheStore (cache : Cache) (url : Str) (v : Option Nat) : Cache :=
  (url, v) :: cache

/-- fetch_link_status from src/main.py, sequentially: return the memoized
entry when present; otherwise perform one GET through the network oracle,
store its status (or None on transport failure) and return it.  The Bool
records whether the GET was actually performed. -/
def fetch_link_status (url : Str) (net : Str → Option Nat) (cache : Cache) :
    Option Nat × Cache × Bool :=
  match cacheLookup cache url with
  | some v => (v, cache, false)
  | none =>
      let r := net url
      (r, cacheStore cache url r, true)

/-! ## Issue classifiers -/

/-- detect_absolute_links from src/main.py: one issue per link that was
absolute in source and whose host satisfies the predicate. -/
def detect_absolute_links (page_url : Str) (links : List PageLink)
    (predicate : Str → Bool) (issue_type : Str) : List Issue :=
  (links.filter (fun l => l.was_absolute && predicate l.host)).map
    (fun l => ⟨page_url, issue_type, link_snippet l⟩)

/-- The issue detect_broken_links emits for a considered link, as a function
of the resolved status. -/
def brokenIssueOf (page_url : Str) (l : PageLink) : Option Nat → Issue
  | none => ⟨page_url, str "Broken link", link_snippet l (some (str "request failed"))⟩
  | some s =>
      ⟨page_url, str "Broken link",
       link_snippet l (some (str "returned HTTP " ++ natToStr s))⟩

/-- Whether a resolved status makes a link broken: unknown (transport
failure) or status at least 400. -/
def isBroken : Option Nat → Bool
  | none => true
  | some s => 400 ≤ s

/-- The loop of detect_broken_links: skip off-host links and absolute URLs
already seen on this page, resolve each remaining URL once through the
cache, and emit a Broken link issue when the status is unknown or at least
400.  The third component logs the URLs for which the fetcher was actually
invoked. -/
def brokenGo (page_url base_host : Str) (net : Str → Option Nat) :
    List PageLink → Cache → List Str → List Issue × Cache × List Str
  | [], cache, _ => ([], cache, [])
  | l :: ls, cache, seen =>
      if l.host ≠ base_host then brokenGo page_url base_host net ls cache seen
      else if seen.contains l.absolute then
        brokenGo page_url base_host net ls cache seen
      else
        let (status, cache', fetched) := fetch_link_status l.absolute net cache
        let rest := brokenGo page_url base_host net ls cache' (l.absolute :: seen)
        let log := (if fetched then [l.absolute] else []) ++ rest.2.2
        if isBroken status then
          (brokenIssueOf page_url l status :: rest.1, rest.2.1, log)
        else (rest.1, rest.2.1, log)

/-- detect_broken_links from src/main.py. -/
def detect_broken_links (page_url : Str) (links : List PageLink)
    (base_host : Str) (net : Str → Option Nat) (cache : Cache) :
    List Issue × Cache × List Str :=
  brokenGo page_url base_host net links cache []

/-! ## Placeholder-text classifier -/

/-- A compiled regular expression of the script, given by its (fixed) match
length and a decidable test for a match starting at a position. -/
structure RePattern where
  patLen : Nat
  matchesAt : Str → Nat → Bool

/-- The pattern re.compile(r"lorem ipsum", re.IGNORECASE): an
ASCII-case-insensitive literal match. -/
def loremPattern : RePattern :=
  ⟨11, fun text i => lowerStr ((text.drop i).take 11) = str "lorem ipsum"⟩

/-- Word characters for the regex word boundary. -/
def isWordChar (c : Char) : Bool := c.isAlpha || c.isDigit || c == '_'

/-- The pattern re.compile(r"\bplaceholder\b", re.IGNORECASE): the literal
word with word boundaries on both sides. -/
def placeholderPattern : RePattern :=
  ⟨11, fun text i =>
    lowerStr ((text.drop i).take 11) = str "placeholder" &&
    (decide (i = 0) || !(((text.drop (i - 1)).take 1).all isWordChar)) &&
    !(((text.drop (i + 11)).take 1).any isWordChar)⟩

/-- Left-to-right selection of non-overlapping match starts, as re.finditer
performs for a fixed-length pattern: a candidate inside the previous match
is skipped. -/
def nonOverlap (len : Nat) : List Nat → Nat → List Nat
  | [], _ => []
  | i :: rest, next =>
      if i < next then nonOverlap len rest next
      else i :: nonOverlap len rest (i + len)

/-- re.finditer for one of the script's patterns: the (start, end) spans of
its non-overlapping matches, in order. -/
def finditer (p : RePattern) (text : Str) : List (Nat × Nat) :=
  (nonOverlap p.patLen ((List.range text.length).filter (p.matchesAt text)) 0).map
    (fun i => (i, i + p.patLen))

/-- PLACEHOLDER_PATTERNS from src/main.py. -/
def PLACEHOLDER_PATTERNS : List RePattern := [loremPattern, placeholderPattern]

/-- snippet_from_text from src/main.py: a window of PLACEHOLDER_CONTEXT
characters on each side of the match, stripped and trimmed. -/
def snippet_from_text (text : Str) (start «end» : Nat) : Str :=
  let snippet_start := start - PLACEHOLDER_CONTEXT
  let snippet_end := min text.length («end» + PLACEHOLDER_CONTEXT)
  trim_snippet (pyStrip ((text.drop snippet_start).take (snippet_end - snippet_start)))

/-- The issue find_placeholder_text emits for a match at a given span. -/
def placeholderIssue (page_url text : Str) (start «end» : Nat) : Issue :=
  ⟨page_url, str "Placeholder text",
   str "Found \"" ++ (text.drop start).take («end» - start) ++ str "\" in \"" ++
     snippet_from_text text start «end» ++ str "\""⟩

/-- The inner loop of find_placeholder_text over one pattern's matches:
append an issue per match and return as soon as the cap is reached. -/
def emitMatches (page_url text : Str) :
    List (Nat × Nat) → List Issue → List Issue
  | [], acc => acc
  | (s, e) :: rest, acc =>
      let acc := acc ++ [placeholderIssue page_url text s e]
      if MAX_PLACEHOLDER_MATCHES ≤ acc.length then acc
      else emitMatches page_url text rest acc

/-- The outer loop of find_placeholder_text over the pattern list (the
early return from the inner loop also exits the outer loop). -/
def emitPatterns (page_url text : Str) :
    List RePattern → List Issue → List Issue
  | [], acc => acc
  | p :: ps, acc =>
      let acc := emitMatches page_url text (finditer p text) acc
      if MAX_PLACEHOLDER_MATCHES ≤ acc.length then acc
      else emitPatterns page_url text ps acc

/-- find_placeholder_text from src/main.py, as a function of the audited
container's raw visible text (the get_text output of the container after
script/style/noscript/template removal, which BeautifulSoup supplies). -/
def find_placeholder_text (page_url rawText : Str) : List Issue :=
  let text := collapse_whitespace rawText
  if text = [] then []
  else emitPatterns page_url text PLACEHOLDER_PATTERNS []

/-! ## Per-page orchestration -/

/-- Python truthiness of the optional SEO-description field: missing or
empty means blank. -/
def blankDesc : Option Str → Bool
  | none => true
  | some s => s.isEmpty

/-- process_row from src/main.py, sequentially for one page.  parseAnchors
and parseText model what BeautifulSoup extracts from the fetched body
(anchors of the audit root, and its visible text); pageNet gives the result
of the page GET for a URL; net is the oracle for link-status GETs.  The
semaphore only limits parallelism and does not change the per-page result.
Returns the page's issues and the updated shared cache. -/
def process_row (parseAnchors : Str → List Anchor) (parseText : Str → Str)
    (row : SourceRow) (pageNet : Str → HttpResult) (net : Str → Option Nat)
    (cache : Cache) : Except Unit (List Issue × Cache) :=
  let (page_status, html, error) := fetch_page (pageNet row.absolute_url)
  let issues : List Issue :=
    if blankDesc row.seo_description then
      [⟨row.raw_url, str "Missing SEO description",
        str "SEO Description column is blank."⟩]
    else []
  if page_status = str "404" then
    Except.ok (issues ++ [⟨row.raw_url, str "Page 404", str "GET returned 404"⟩],
               cache)
  else if page_status = str "error" then
    Except.ok (issues ++ [⟨row.raw_url, str "Fetch failed",
                           error.getD (str "Unknown error")⟩], cache)
  else
    match extract_page_links (parseAnchors (html.getD [])) row.absolute_url with
    | Except.error e => Except.error e
    | Except.ok links =>
    match urlparseE [] row.absolute_url with
    | Except.error e => Except.error e
    | Except.ok pb =>
        let base_host := lowerStr pb.netloc
        let issues := issues ++
          detect_absolute_links row.raw_url links
            (fun host => DEV_PROD_HOSTS.contains host)
            (str "Absolute link to dev/prod domain")
        let issues := issues ++
          detect_absolute_links row.raw_url links
            (fun host => BLOCKED_LIFELINE_HOSTS.contains host)
            (str "Link to lifeline.org.au")
        let (brokenIssues, cache2, _) :=
          detect_broken_links row.raw_url links base_host net cache
        let issues := issues ++ brokenIssues
        let issues := issues ++
          find_placeholder_text row.raw_url (parseText (html.getD []))
        Except.ok (issues, cache2)

/-- absolutize_url from src/main.py (RuntimeError modelled by Except.error):
an http/https URL is kept, a protocol-relative one gets https, and anything
else is resolved against the base URL after stripping leading slashes. -/
def absolutize_url (url : Str) (base_url : Option Str) : Except Unit Str :=
  let trimmed := pyStrip url
  if trimmed = [] then Except.error ()
  else
    match urlparseE [] trimmed with
    | Except.error e => Except.error e
    | Except.ok p =>
        if p.scheme = str "http" ∨ p.scheme = str "https" then Except.ok trimmed
        else if (str "//").isPrefixOf trimmed then Except.ok (str "https:" ++ trimmed)
        else
          match base_url with
          | none => Except.error ()
          | some b => urljoinE b (trimmed.dropWhile (· = '/'))

/-! ## Run-level aggregation (asyncio.create_task + gather) -/

/-- The per-task results as asyncio.gather sees them: tasks are created in
input order, each task index is paired with its page's issue list when the
task completes, in an arbitrary completion order. -/
def gatherStore (pageResults : List (List Issue)) (order : List Nat) :
    List (Nat × List Issue) :=
  order.map (fun i => (i, pageResults.getD i []))

/-- The aggregation of run_audit: gather returns the results keyed by task
creation index regardless of completion order, and the final report is
their flattening in input order. -/
def run_audit_report (pageResults : List (List Issue)) (order : List Nat) :
    List Issue :=
  ((List.range pageResults.length).map
    (fun i => ((gatherStore pageResults order).lookup i).getD [])).flatten

/-! ## Interleaving model of the shared cache under concurrency

fetch_link_status runs inside concurrently scheduled page-audit tasks.  In
asyncio, code between awaits runs atomically; the function has exactly one
await (the GET).  A task for a URL is therefore a two-step program: step
one checks the cache and, on a miss, issues the GET and suspends; step two
resumes when the response arrives, stores the status and finishes.  The
scheduler interleaves these steps across tasks arbitrarily. -/

/-- The state of one in-flight fetch_link_status call. -/
inductive TState where
  | start
  | waiting
  | done (result : Option Nat)
deriving DecidableEq, Repr

/-- One concurrent caller of fetch_link_status: the URL it looks up and its
progress. -/
structure CTask where
  url : Str
  state : TState
deriving DecidableEq, Repr

/-- The shared system state: the callers, the shared cache, and the log of
URLs for which the Page Fetcher has been invoked. -/
structure CacheSys where
  tasks : List CTask
  cache : Cache
  fetchLog : List Str
deriving DecidableEq, Repr

/-- Replace the state of the i-th task. -/
def setTaskState : List CTask → Nat → TState → List CTask
  | [], _, _ => []
  | t :: ts, 0, s => { t with state := s } :: ts
  | t :: ts, i + 1, s => t :: setTaskState ts i s

/-- A scheduler event: run the next atomic step of task i, or deliver the
network response for task i's pending GET. -/
inductive Event where
  | run (i : Nat)
  | deliver (i : Nat) (resp : Option Nat)
deriving DecidableEq, Repr

/-- One scheduler step.  run i executes task i's cache check: a hit
finishes the task with the memoized value; a miss issues the GET (logging
the fetcher invocation) and suspends.  deliver i resp resumes a suspended
task: the status (or none for a transport failure) is stored in the cache
and returned.  Events that do not apply are no-ops. -/
def stepEvent (st : CacheSys) : Event → CacheSys
  | Event.run i =>
      match st.tasks.get? i with
      | some t =>
          match t.state with
          | TState.start =>
              match cacheLookup st.cache t.url with
              | some v => { st with tasks := setTaskState st.tasks i (TState.done v) }
              | none =>
                  { st with tasks := setTaskState st.tasks i TState.waiting,
                            fetchLog := st.fetchLog ++ [t.url] }
          | _ => st
      | none => st
  | Event.deliver i resp =>
      match st.tasks.get? i with
      | some t =>
          match t.state with
          | TState.waiting =>
              { st with tasks := setTaskState st.tasks i (TState.done resp),
                        cache := cacheStore st.cache t.url resp }
          | _ => st
      | none => st

/-- Run a whole schedule. -/
def runEvents (es : List Event) (st : CacheSys) : CacheSys :=
  es.foldl stepEvent st

/-! ## Derived specification-side definitions and concrete instances -/

/-- Number of placeholder-pattern matches in a page's normalized text,
summed over the two patterns. -/
def totalPlaceholderMatches (rawText : Str) : Nat :=
  (PLACEHOLDER_PATTERNS.map
    (fun p => (finditer p (collapse_whitespace rawText)).length)).sum

/-- The concrete input refuting the exact-197-characters reading: 196
letters followed by 5 spaces. -/
def rstripCex : Str := List.replicate 196 'a' ++ List.replicate 5 ' '

/-- A page text with 25 placeholder-pattern matches. -/
def placeholder25 : Str := joinSpace (List.replicate 25 (str "placeholder"))

/-- The filter-then-dedup pass of the broken-link check: the links whose
host equals the page's own host, de-duplicated by absolute URL keeping first
occurrences (seen accumulates the absolute URLs already kept). -/
def consideredGo (base_host : Str) : List PageLink → List Str → List PageLink
  | [], _ => []
  | l :: ls, seen =>
      if l.host ≠ base_host then consideredGo base_host ls seen
      else if seen.contains l.absolute then consideredGo base_host ls seen
      else l :: consideredGo base_host ls (l.absolute :: seen)

/-- The links the broken-link check considers: same-host links,
de-duplicated by absolute URL within the page. -/
def consideredLinks (links : List PageLink) (base_host : Str) : List PageLink :=
  consideredGo base_host links []

/-- De-duplication by absolute URL keeping first occurrences (on an already
host-filtered list). -/
def dedupAbsGo : List PageLink → List Str → List PageLink
  | [], _ => []
  | l :: ls, seen =>
      if seen.contains l.absolute then dedupAbsGo ls seen
      else l :: dedupAbsGo ls (l.absolute :: seen)

/-- The status the cache resolves for a URL during one page's broken-link
pass: the memoized value when present, otherwise the network outcome. -/
def cachedStatus (net : Str → Option Nat) (cache : Cache) (u : Str) : Option Nat :=
  match cacheLookup cache u with
  | some v => v
  | none => net u

/-- A URL looked up concurrently in the scheduler model. -/
def c1Url : Str := str "https://site/u"

/-- Two concurrent first-time callers of fetch_link_status for the same
URL, over an empty cache. -/
def c1Init : CacheSys :=
  ⟨[⟨c1Url, TState.start⟩, ⟨c1Url, TState.start⟩], [], []⟩

/-- One caller of fetch_link_status for a URL that is already cached. -/
def c1CachedInit : CacheSys :=
  ⟨[⟨c1Url, TState.start⟩], [(c1Url, some 200)], []⟩

/-! ## Length lemmas for snippets -/

lemma length_pyRStrip_le (s : Str) : (pyRStrip s).length ≤ s.length := by
  simpa [pyRStrip] using (List.dropWhile_sublist (l := s.reverse) isPySpace).length_le

lemma length_pyStrip_le (s : Str) : (pyStrip s).length ≤ s.length := by
  unfold pyStrip
  exact le_trans (length_pyRStrip_le _)
    (by simpa [pyLStrip] using (List.dropWhile_sublist (l := s) isPySpace).length_le)

lemma length_trim_snippet_le (t : Str) : (trim_snippet t).length ≤ 200 := by
  unfold trim_snippet
  split
  · assumption
  · have h1 := length_pyRStrip_le (t.take (200 - 3))
    have h2 : (t.take (200 - 3)).length ≤ 200 - 3 :=
      List.length_take_le (200 - 3) t
    have h3 : (str "...").length = 3 := rfl
    simp only [List.length_append]
    omega

lemma length_trim_snippet_le_self (t : Str) : (trim_snippet t).length ≤ t.length := by
  rcases le_or_lt t.length 200 with h | h
  · simp [trim_snippet, h]
  · exact le_trans (length_trim_snippet_le t) (Nat.le_of_lt h)

lemma length_snippet_from_text_le (text : Str) (s e : Nat) (h : s ≤ e) :
    (snippet_from_text text s e).length ≤ (e - s) + 160 := by
  unfold snippet_from_text PLACEHOLDER_CONTEXT
  refine le_trans (length_trim_snippet_le_self _) ?_
  refine le_trans (length_pyStrip_le _) ?_
  refine le_trans (List.length_take_le _ _) ?_
  have hmin : min text.length (e + 80) ≤ e + 80 := Nat.min_le_right _ _
  omega

/-! ## Shape lemmas for the placeholder classifier -/

lemma finditer_span {p : RePattern} {text : Str} {s e : Nat}
    (h : (s, e) ∈ finditer p text) : e = s + p.patLen := by
  unfold finditer at h
  rcases List.mem_map.mp h with ⟨i, _, hi⟩
  cases hi
  rfl

lemma mem_emitMatches {page_url text : Str} {i : Issue} :
    ∀ (ms : List (Nat × Nat)) (acc : List Issue),
      i ∈ emitMatches page_url text ms acc →
      i ∈ acc ∨ ∃ s e, (s, e) ∈ ms ∧ i = placeholderIssue page_url text s e := by
  intro ms
  induction ms with
  | nil => intro acc h; exact Or.inl h
  | cons se rest ih =>
      intro acc h
      obtain ⟨s, e⟩ := se
      simp only [emitMatches] at h
      split at h
      · rcases List.mem_append.mp h with h' | h'
        · exact Or.inl h'
        · refine Or.inr ⟨s, e, List.mem_cons_self _ _, ?_⟩
          simpa using h'
      · rcases ih _ h with h' | h'
        · rcases List.mem_append.mp h' with h'' | h''
          · exact Or.inl h''
          · refine Or.inr ⟨s, e, List.mem_cons_self _ _, ?_⟩
            simpa using h''
        · rcases h' with ⟨s', e', hm, hi⟩
          exact Or.inr ⟨s', e', List.mem_cons_of_mem _ hm, hi⟩

lemma mem_emitPatterns {page_url text : Str} {i : Issue} :
    ∀ (ps : List RePattern) (acc : List Issue),
      i ∈ emitPatterns page_url text ps acc →
      i ∈ acc ∨ ∃ p ∈ ps, ∃ s e, (s, e) ∈ finditer p text ∧
        i = placeholderIssue page_url text s e := by
  intro ps
  induction ps with
  | nil => intro acc h; exact Or.inl h
  | cons p rest ih =>
      intro acc h
      simp only [emitPatterns] at h
      have fromInner :
          i ∈ emitMatches page_url text (finditer p text) acc →
          i ∈ acc ∨ ∃ q ∈ p :: rest, ∃ s e, (s, e) ∈ finditer q text ∧
            i = placeholderIssue page_url text s e := by
        intro hin
        rcases mem_emitMatches _ _ hin with h' | ⟨s, e, hm, hi⟩
        · exact Or.inl h'
        · exact Or.inr ⟨p, List.mem_cons_self _ _, s, e, hm, hi⟩
      split at h
      · exact fromInner h
      · rcases ih _ h with h' | h'
        · exact fromInner h'
        · rcases h' with ⟨q, hq, s, e, hm, hi⟩
          exact Or.inr ⟨q, List.mem_cons_of_mem _ hq, s, e, hm, hi⟩

lemma placeholderIssue_snippet_len {page_url text : Str} {s e : Nat}
    (hse : e = s + 11) :
    (placeholderIssue page_url text s e).snippet.length ≤ 196 := by
  subst hse
  unfold placeholderIssue
  simp only [List.length_append]
  have hg : ((text.drop s).take (s + 11 - s)).length ≤ 11 := by
    have := List.length_take_le (s + 11 - s) (text.drop s)
    omega
  have hs : (snippet_from_text text s (s + 11)).length ≤ (s + 11 - s) + 160 :=
    length_snippet_from_text_le text s (s + 11) (by omega)
  have h7 : (str "Found \"").length = 7 := rfl
  have h6 : (str "\" in \"").length = 6 := rfl
  have h1 : (str "\"").length = 1 := rfl
  omega

lemma mem_find_placeholder_snippet_le {page_url rawText : Str} {i : Issue}
    (h : i ∈ find_placeholder_text page_url rawText) :
    i.snippet.length ≤ 200 := by
  simp only [find_placeholder_text] at h
  split at h
  · simp at h
  · have hh := mem_emitPatterns PLACEHOLDER_PATTERNS [] h
    rcases hh with h' | ⟨p, hp, s, e, hm, hi⟩
    · simp at h'
    · have hlen : p.patLen = 11 := by
        simp only [PLACEHOLDER_PATTERNS, List.mem_cons, List.not_mem_nil,
          or_false] at hp
        rcases hp with rfl | rfl <;> rfl
      subst hi
      exact le_trans
        (placeholderIssue_snippet_len (by simpa [hlen] using finditer_span hm))
        (by omega)

/-! ## Claim C3 -/

set_option maxRecDepth 4000 in
/-- C3 counterexample: for a 201-character snippet ending in whitespace,
trim_snippet does not return the first 197 characters plus "..."; the
right-strip inside the truncation drops the trailing space, producing 199
characters rather than 200. -/
theorem C3_trim_rstrip_counterexample :
    200 < rstripCex.length ∧
    trim_snippet rstripCex ≠ rstripCex.take 197 ++ str "..." ∧
    (trim_snippet rstripCex).length = 199 := by
  refine ⟨by decide, by decide, by decide⟩

/-- C3 (amended): a snippet within the 200-character cap is unchanged; a
longer one is truncated to at most its first 197 characters (with trailing
whitespace stripped) plus an ellipsis marker; trimmed snippets never exceed
200 characters, and neither the host-policy/broken-link snippets nor the
placeholder-text snippets ever exceed the 200-character cap. -/
theorem C3_snippet_cap :
    (∀ text : Str, text.length ≤ 200 → trim_snippet text = text)
    ∧ (∀ text : Str, 200 < text.length →
        trim_snippet text = pyRStrip (text.take 197) ++ str "...")
    ∧ (∀ text : Str, (trim_snippet text).length ≤ 200)
    ∧ (∀ (link : PageLink) (extra : Option Str),
        (link_snippet link extra).length ≤ 200)
    ∧ (∀ (page_url rawText : Str), ∀ i ∈ find_placeholder_text page_url rawText,
        i.snippet.length ≤ 200) := by
  refine ⟨?_, ?_, length_trim_snippet_le, ?_, ?_⟩
  · intro text h; simp [trim_snippet, h]
  · intro text h
    have : ¬ text.length ≤ 200 := by omega
    simp [trim_snippet, this]
  · intro link extra; exact length_trim_snippet_le _
  · intro page_url rawText i h; exact mem_find_placeholder_snippet_le h

set_option maxRecDepth 4000 in
/-- C3 witness: the amended theorem evaluated at concrete inputs. -/
theorem C3_snippet_cap_witness :
    trim_snippet (str "hello") = str "hello"
    ∧ trim_snippet rstripCex = pyRStrip (rstripCex.take 197) ++ str "..."
    ∧ (⟨str "u", str "Placeholder text",
         str "Found \"lorem ipsum\" in \"lorem ipsum\""⟩ : Issue).snippet.length ≤ 200 :=
  ⟨C3_snippet_cap.1 (str "hello") (by decide),
   C3_snippet_cap.2.1 rstripCex (by decide),
   C3_snippet_cap.2.2.2.2 (str "u") (str "lorem ipsum") _ (by decide)⟩

/-! ## Claim C7 -/

/-- C7: the link-status lookup as a sequential operation.  A cached URL is
answered from the cache with no fetch; an uncached one triggers exactly one
fetch whose outcome (status, or none on transport failure) is stored and
returned, after which a repeated lookup is answered from the cache with no
further fetch. -/
theorem C7_resolve_status :
    ∀ (url : Str) (net : Str → Option Nat) (cache : Cache),
      (∀ v, cacheLookup cache url = some v →
        fetch_link_status url net cache = (v, cache, false))
      ∧ (cacheLookup cache url = none →
          fetch_link_status url net cache =
            (net url, cacheStore cache url (net url), true)
          ∧ cacheLookup (cacheStore cache url (net url)) url = some (net url)
          ∧ fetch_link_status url net (cacheStore cache url (net url)) =
              (net url, cacheStore cache url (net url), false)) := by
  intro url net cache
  refine ⟨?_, ?_⟩
  · intro v h; simp [fetch_link_status, h]
  · intro h
    refine ⟨by simp [fetch_link_status, h], ?_, ?_⟩
    · simp [cacheLookup, cacheStore, List.lookup]
    · simp [fetch_link_status, cacheLookup, cacheStore, List.lookup]

/-- C7 witness: both branches at concrete inputs. -/
theorem C7_resolve_status_witness :
    fetch_link_status (str "https://e.com/a") (fun _ => some 200)
        [(str "https://e.com/a", some 301)] =
      (some 301, [(str "https://e.com/a", some 301)], false)
    ∧ fetch_link_status (str "https://e.com/a") (fun _ => some 200) [] =
        (some 200, [(str "https://e.com/a", some 200)], true) :=
  ⟨(C7_resolve_status (str "https://e.com/a") (fun _ => some 200)
      [(str "https://e.com/a", some 301)]).1 (some 301) (by decide),
   ((C7_resolve_status (str "https://e.com/a") (fun _ => some 200) []).2
      (by decide)).1⟩

/-! ## Claim C2 -/

set_option maxRecDepth 4000 in
/-- C2 counterexample: a page descriptor whose SEO-description field is
blank and whose fetch returns HTTP 404 yields two issues (Missing SEO
description first, then Page 404), so its issue list is not exactly one
issue of kind Page 404. -/
theorem C2_notfound_counterexample :
    process_row (fun _ => []) (fun _ => [])
        ⟨str "https://site/x", str "https://site/x", none⟩
        (fun _ => HttpResult.response 404 []) (fun _ => none) [] =
      Except.ok
        ([⟨str "https://site/x", str "Missing SEO description",
           str "SEO Description column is blank."⟩,
          ⟨str "https://site/x", str "Page 404", str "GET returned 404"⟩], [])
    ∧ (process_row (fun _ => []) (fun _ => [])
        ⟨str "https://site/x", str "https://site/x", none⟩
        (fun _ => HttpResult.response 404 []) (fun _ => none) []).map
          (fun r => r.1.length) = Except.ok 2
    ∧ (2 : Nat) ≠ 1 := by
  refine ⟨rfl, rfl, by decide⟩

/-- C2 (amended): when a page's fetch returns HTTP 404, no further
classifiers run and the shared cache is untouched; the page's issue list is
exactly the Missing-SEO-description issue (when the description is blank)
followed by the Page 404 issue — so exactly one Page 404 issue, preceded by
the description issue only for blank-description rows. -/
theorem C2_notfound_issues
    (pa : Str → List Anchor) (pt : Str → Str) (row : SourceRow)
    (pageNet : Str → HttpResult) (net : Str → Option Nat) (cache : Cache)
    (body : Str) (h : pageNet row.absolute_url = HttpResult.response 404 body) :
    process_row pa pt row pageNet net cache =
      Except.ok
        ((if blankDesc row.seo_description then
            [⟨row.raw_url, str "Missing SEO description",
              str "SEO Description column is blank."⟩]
          else []) ++
         [⟨row.raw_url, str "Page 404", str "GET returned 404"⟩], cache) := by
  simp [process_row, h, fetch_page]

/-- C2 witness: the amended theorem at a concrete 404 row with a present
description, yielding exactly the Page 404 issue. -/
theorem C2_notfound_issues_witness :
    process_row (fun _ => []) (fun _ => [])
        ⟨str "https://site/x", str "https://site/x", some (str "A fine page.")⟩
        (fun _ => HttpResult.response 404 []) (fun _ => none) [] =
      Except.ok ([⟨str "https://site/x", str "Page 404", str "GET returned 404"⟩],
                 []) := by
  have h := C2_notfound_issues (fun _ => []) (fun _ => [])
    ⟨str "https://site/x", str "https://site/x", some (str "A fine page.")⟩
    (fun _ => HttpResult.response 404 []) (fun _ => none) [] [] rfl
  simpa using h

/-! ## Claim C9 -/

lemma length_emitMatches {page_url text : Str} :
    ∀ (ms : List (Nat × Nat)) (acc : List Issue),
      acc.length < MAX_PLACEHOLDER_MATCHES →
      (emitMatches page_url text ms acc).length =
        min (acc.length + ms.length) MAX_PLACEHOLDER_MATCHES := by
  intro ms
  induction ms with
  | nil =>
      intro acc h
      simp only [emitMatches, List.length_nil]
      omega
  | cons se rest ih =>
      intro acc h
      obtain ⟨s, e⟩ := se
      have hlen : (acc ++ [placeholderIssue page_url text s e]).length =
          acc.length + 1 := by simp
      simp only [emitMatches, List.length_cons]
      by_cases hc : MAX_PLACEHOLDER_MATCHES ≤
          (acc ++ [placeholderIssue page_url text s e]).length
      · rw [if_pos hc]
        omega
      · rw [if_neg hc]
        rw [ih _ (by omega)]
        omega

lemma length_emitPatterns {page_url text : Str} :
    ∀ (ps : List RePattern) (acc : List Issue),
      acc.length < MAX_PLACEHOLDER_MATCHES →
      (emitPatterns page_url text ps acc).length =
        min (acc.length + (ps.map (fun p => (finditer p text).length)).sum)
          MAX_PLACEHOLDER_MATCHES := by
  intro ps
  induction ps with
  | nil =>
      intro acc h
      simp only [emitPatterns, List.map_nil, List.sum_nil]
      omega
  | cons p rest ih =>
      intro acc h
      simp only [emitPatterns]
      have hm : (emitMatches page_url text (finditer p text) acc).length =
          min (acc.length + (finditer p text).length) MAX_PLACEHOLDER_MATCHES :=
        length_emitMatches (finditer p text) acc h
      by_cases hc : MAX_PLACEHOLDER_MATCHES ≤
          (emitMatches page_url text (finditer p text) acc).length
      · rw [if_pos hc]
        simp only [List.map_cons, List.sum_cons]
        omega
      · rw [if_neg hc]
        rw [ih _ (by omega)]
        simp only [List.map_cons, List.sum_cons]
        omega

/-- C9: the placeholder-text check never emits more than the configured cap
of 20 issues; in particular a page whose normalized text contains 25
placeholder-pattern matches yields exactly 20 issues, not 25. -/
theorem C9_placeholder_cap :
    ∀ (page_url rawText : Str),
      (find_placeholder_text page_url rawText).length ≤ MAX_PLACEHOLDER_MATCHES
      ∧ (totalPlaceholderMatches rawText = 25 →
          (find_placeholder_text page_url rawText).length = MAX_PLACEHOLDER_MATCHES) := by
  intro page_url rawText
  by_cases he : collapse_whitespace rawText = []
  · constructor
    · simp [find_placeholder_text, he, MAX_PLACEHOLDER_MATCHES]
    · intro h25
      exfalso
      simp [totalPlaceholderMatches, he, finditer, nonOverlap] at h25
  · have hrun : (emitPatterns page_url (collapse_whitespace rawText)
        PLACEHOLDER_PATTERNS []).length =
        min (([] : List Issue).length +
          (PLACEHOLDER_PATTERNS.map
            (fun p => (finditer p (collapse_whitespace rawText)).length)).sum)
          MAX_PLACEHOLDER_MATCHES :=
      length_emitPatterns PLACEHOLDER_PATTERNS []
        (by simp [MAX_PLACEHOLDER_MATCHES])
    have hfind : find_placeholder_text page_url rawText =
        emitPatterns page_url (collapse_whitespace rawText) PLACEHOLDER_PATTERNS [] := by
      simp [find_placeholder_text, he]
    constructor
    · rw [hfind, hrun]
      omega
    · intro h25
      rw [hfind, hrun]
      simp only [totalPlaceholderMatches] at h25
      simp only [List.length_nil, Nat.zero_add, h25, MAX_PLACEHOLDER_MATCHES]
      decide

set_option maxRecDepth 8000 in
/-- C9 witness: a concrete page text with 25 placeholder matches yields
exactly 20 issues. -/
theorem C9_placeholder_cap_witness :
    totalPlaceholderMatches placeholder25 = 25
    ∧ (find_placeholder_text (str "u") placeholder25).length =
        MAX_PLACEHOLDER_MATCHES :=
  ⟨by decide, (C9_placeholder_cap (str "u") placeholder25).2 (by decide)⟩

/-! ## Claim C5 -/

lemma lookup_gatherStore {pageResults : List (List Issue)} {i : Nat} :
    ∀ {order : List Nat}, i ∈ order →
      (gatherStore pageResults order).lookup i = some (pageResults.getD i []) := by
  intro order
  induction order with
  | nil => intro hi; cases hi
  | cons j rest ih =>
      intro hi
      simp only [gatherStore, List.map_cons, List.lookup]
      by_cases hij : i = j
      · subst hij
        simp
      · have : (i == j) = false := beq_false_of_ne hij
        rw [this]
        exact ih (by rcases List.mem_cons.mp hi with h | h; exact absurd h hij; exact h)

lemma map_getD_range {α : Type} (l : List α) (d : α) :
    (List.range l.length).map (fun i => l.getD i d) = l := by
  induction l with
  | nil => simp
  | cons x xs ih =>
      rw [List.length_cons, List.range_succ_eq_map]
      simp only [List.map_cons, List.map_map, List.getD_cons_zero]
      refine congrArg (x :: ·) ?_
      have hfun : ((fun i => (x :: xs).getD i d) ∘ Nat.succ) =
          fun i => xs.getD i d := by
        funext i
        simp [List.getD_cons_succ]
      rw [hfun, ih]

/-- C5: the final audit report equals the concatenation of each page's
issue list in the input order of the pages, for every completion order of
the concurrently processed pages (any permutation of the task indices). -/
theorem C5_report_input_order :
    ∀ (pageResults : List (List Issue)) (order : List Nat),
      order.Perm (List.range pageResults.length) →
      run_audit_report pageResults order = pageResults.flatten := by
  intro pr order hperm
  unfold run_audit_report
  have hmap : (List.range pr.length).map
      (fun i => ((gatherStore pr order).lookup i).getD []) =
      (List.range pr.length).map (fun i => pr.getD i []) := by
    apply List.map_congr_left
    intro i hi
    rw [lookup_gatherStore (hperm.mem_iff.mpr hi)]
    rfl
  rw [hmap, map_getD_range]

/-- C5 witness: pages A, B, C completing in order C, A, B still report A's
issues, then B's, then C's. -/
theorem C5_report_input_order_witness :
    run_audit_report
      [[⟨str "A", str "Page 404", str "GET returned 404"⟩],
       [⟨str "B", str "Page 404", str "GET returned 404"⟩],
       [⟨str "C", str "Page 404", str "GET returned 404"⟩]] [2, 0, 1] =
      [⟨str "A", str "Page 404", str "GET returned 404"⟩,
       ⟨str "B", str "Page 404", str "GET returned 404"⟩,
       ⟨str "C", str "Page 404", str "GET returned 404"⟩] := by
  have h := C5_report_input_order
    [[⟨str "A", str "Page 404", str "GET returned 404"⟩],
     [⟨str "B", str "Page 404", str "GET returned 404"⟩],
     [⟨str "C", str "Page 404", str "GET returned 404"⟩]] [2, 0, 1] (by decide)
  simpa using h

/-! ## Claim C10 -/

lemma url_brokenIssueOf {page_url : Str} {l : PageLink} (st : Option Nat) :
    (brokenIssueOf page_url l st).url = page_url := by
  cases st <;> rfl

lemma url_detect_absolute_links {page_url t : Str} {links : List PageLink}
    {pred : Str → Bool} {i : Issue}
    (h : i ∈ detect_absolute_links page_url links pred t) : i.url = page_url := by
  unfold detect_absolute_links at h
  rcases List.mem_map.mp h with ⟨l, _, rfl⟩
  rfl

lemma url_brokenGo {page_url base_host : Str} {net : Str → Option Nat} {i : Issue} :
    ∀ (ls : List PageLink) (cache : Cache) (seen : List Str),
      i ∈ (brokenGo page_url base_host net ls cache seen).1 → i.url = page_url := by
  intro ls
  induction ls with
  | nil => intro cache seen h; simp [brokenGo] at h
  | cons l rest ih =>
      intro cache seen h
      rcases hfs : fetch_link_status l.absolute net cache with ⟨status, cache', fetched⟩
      simp only [brokenGo, hfs] at h
      split at h
      · exact ih _ _ h
      · split at h
        · exact ih _ _ h
        · split at h
          · rcases List.mem_cons.mp h with rfl | h'
            · exact url_brokenIssueOf status
            · exact ih _ _ h'
          · exact ih _ _ h

lemma url_find_placeholder {page_url rawText : Str} {i : Issue}
    (h : i ∈ find_placeholder_text page_url rawText) : i.url = page_url := by
  simp only [find_placeholder_text] at h
  split at h
  · simp at h
  · rcases mem_emitPatterns PLACEHOLDER_PATTERNS [] h with h' | ⟨p, _, s, e, _, rfl⟩
    · simp at h'
    · rfl

/-- C10: every issue a page audit emits carries the raw URL string exactly
as read from the input row (even though the fetch itself uses the
absolutized URL), so relative input spellings are reported verbatim. -/
theorem C10_issue_urls_are_raw :
    ∀ (pa : Str → List Anchor) (pt : Str → Str) (row : SourceRow)
      (pageNet : Str → HttpResult) (net : Str → Option Nat) (cache : Cache)
      (issues : List Issue) (cache' : Cache),
      process_row pa pt row pageNet net cache = Except.ok (issues, cache') →
      ∀ i ∈ issues, i.url = row.raw_url := by
  intro pa pt row pageNet net cache issues cache' h i hi
  rcases hfp : fetch_page (pageNet row.absolute_url) with ⟨ps, html, error⟩
  simp only [process_row, hfp] at h
  have hpre : ∀ j ∈ (if blankDesc row.seo_description then
      [(⟨row.raw_url, str "Missing SEO description",
        str "SEO Description column is blank."⟩ : Issue)] else []),
      j.url = row.raw_url := by
    intro j hj
    split at hj
    · rcases List.mem_singleton.mp hj with rfl; rfl
    · cases hj
  split at h
  · simp only [Except.ok.injEq, Prod.mk.injEq] at h
    obtain ⟨h1, h2⟩ := h
    subst h1
    rcases List.mem_append.mp hi with h' | h'
    · exact hpre i h'
    · rcases List.mem_singleton.mp h' with rfl; rfl
  · split at h
    · simp only [Except.ok.injEq, Prod.mk.injEq] at h
      obtain ⟨h1, h2⟩ := h
      subst h1
      rcases List.mem_append.mp hi with h' | h'
      · exact hpre i h'
      · rcases List.mem_singleton.mp h' with rfl; rfl
    · rcases hE : extract_page_links (pa (html.getD [])) row.absolute_url with e | links
      · simp [hE] at h
      · rcases hP : urlparseE [] row.absolute_url with e | pb
        · simp [hE, hP] at h
        · rcases hB : detect_broken_links row.raw_url links (lowerStr pb.netloc)
            net cache with ⟨bIss, cacheB, log⟩
          simp only [hE, hP, hB, Except.ok.injEq, Prod.mk.injEq] at h
          obtain ⟨h1, h2⟩ := h
          subst h1
          rcases List.mem_append.mp hi with h' | h'
          · rcases List.mem_append.mp h' with h'' | h''
            · rcases List.mem_append.mp h'' with h3 | h3
              · rcases List.mem_append.mp h3 with h4 | h4
                · exact hpre i h4
                · exact url_detect_absolute_links h4
              · exact url_detect_absolute_links h3
            · have hmem : i ∈
                  (brokenGo row.raw_url (lowerStr pb.netloc) net links cache []).1 := by
                have hconv : brokenGo row.raw_url (lowerStr pb.netloc) net links cache []
                    = (bIss, cacheB, log) := hB
                rw [hconv]
                exact h''
              exact url_brokenGo links cache [] hmem
          · exact url_find_placeholder h'

/-- C10 witness: a relative raw URL absolutized for the fetch is still the
URL reported on the page's issues. -/
theorem C10_issue_urls_are_raw_witness :
    (⟨str "/about", str "Page 404", str "GET returned 404"⟩ : Issue).url =
      str "/about" :=
  C10_issue_urls_are_raw (fun _ => []) (fun _ => [])
    ⟨str "/about", str "https://example.com/about", some (str "desc")⟩
    (fun _ => HttpResult.response 404 []) (fun _ => none) []
    [⟨str "/about", str "Page 404", str "GET returned 404"⟩] [] (by rfl)
    ⟨str "/about", str "Page 404", str "GET returned 404"⟩ (by decide)

/-! ## Claim C8 -/

lemma cacheLookup_store_ne {cache : Cache} {k u : Str} (v : Option Nat)
    (h : u ≠ k) : cacheLookup (cacheStore cache k v) u = cacheLookup cache u := by
  simp [cacheLookup, cacheStore, List.lookup, beq_false_of_ne h]

lemma considered_eq_filter_dedup {base_host : Str} :
    ∀ (links : List PageLink) (seen : List Str),
      consideredGo base_host links seen =
        dedupAbsGo (links.filter (fun l => l.host == base_host)) seen := by
  intro links
  induction links with
  | nil => intro seen; rfl
  | cons l ls ih =>
      intro seen
      by_cases hh : l.host = base_host
      · have hne : ¬ l.host ≠ base_host := by simp [hh]
        have hfilter : (l :: ls).filter (fun l => l.host == base_host) =
            l :: ls.filter (fun l => l.host == base_host) := by
          simp [List.filter_cons, hh]
        rw [hfilter]
        simp only [consideredGo, dedupAbsGo]
        rw [if_neg hne]
        by_cases hs : seen.contains l.absolute
        · rw [if_pos hs, if_pos hs]
          exact ih seen
        · rw [if_neg hs, if_neg hs]
          exact congrArg (l :: ·) (ih _)
      · have hfilter : (l :: ls).filter (fun l => l.host == base_host) =
            ls.filter (fun l => l.host == base_host) := by
          simp [List.filter_cons, hh]
        rw [hfilter]
        simp only [consideredGo]
        rw [if_pos hh]
        exact ih seen

lemma considered_abs_not_seen {base_host : Str} :
    ∀ (links : List PageLink) (seen : List Str),
      (((consideredGo base_host links seen).map (fun l => l.absolute)).Nodup)
      ∧ (∀ l ∈ consideredGo base_host links seen, seen.contains l.absolute = false) := by
  intro links
  induction links with
  | nil => intro seen; exact ⟨List.nodup_nil, by intro l h; cases h⟩
  | cons l ls ih =>
      intro seen
      simp only [consideredGo]
      by_cases h1 : l.host ≠ base_host
      · rw [if_pos h1]; exact ih seen
      · rw [if_neg h1]
        by_cases h2 : seen.contains l.absolute
        · rw [if_pos h2]; exact ih seen
        · rw [if_neg h2]
          obtain ⟨ihn, ihs⟩ := ih (l.absolute :: seen)
          refine ⟨?_, ?_⟩
          · simp only [List.map_cons, List.nodup_cons]
            refine ⟨?_, ihn⟩
            intro hmem
            rcases List.mem_map.mp hmem with ⟨l2, hl2, habs⟩
            have := ihs l2 hl2
            rw [List.contains_cons] at this
            simp [habs] at this
          · intro l2 hl2
            rcases List.mem_cons.mp hl2 with rfl | hl3
            · simpa using h2
            · have := ihs l2 hl3
              rw [List.contains_cons] at this
              cases hb : seen.contains l2.absolute
              · rfl
              · rw [hb] at this; simp at this

lemma contains_cons_false {seen : List Str} {a u : Str}
    (hu : (a :: seen).contains u = false) :
    (u == a) = false ∧ seen.contains u = false := by
  rw [List.contains_cons, Bool.or_eq_false_iff] at hu
  exact hu

lemma brokenGo_spec (page_url base_host : Str) (net : Str → Option Nat)
    (cache0 : Cache) :
    ∀ (links : List PageLink) (cache : Cache) (seen : List Str),
      (∀ u, seen.contains u = false → cacheLookup cache u = cacheLookup cache0 u) →
      (brokenGo page_url base_host net links cache seen).1 =
        (consideredGo base_host links seen).filterMap
          (fun l =>
            if isBroken (cachedStatus net cache0 l.absolute) then
              some (brokenIssueOf page_url l (cachedStatus net cache0 l.absolute))
            else none)
      ∧ (brokenGo page_url base_host net links cache seen).2.2.Sublist
          ((consideredGo base_host links seen).map (fun l => l.absolute)) := by
  intro links
  induction links with
  | nil => intro cache seen hinv; exact ⟨rfl, List.Sublist.refl _⟩
  | cons l ls ih =>
      intro cache seen hinv
      by_cases h1 : l.host ≠ base_host
      · simp only [brokenGo, consideredGo, if_pos h1]
        exact ih cache seen hinv
      · by_cases h2 : seen.contains l.absolute
        · simp only [brokenGo, consideredGo, if_neg h1, if_pos h2]
          exact ih cache seen hinv
        · have h2f : seen.contains l.absolute = false := by
            cases hb : seen.contains l.absolute
            · rfl
            · exact absurd hb h2
          have hlk : cacheLookup cache l.absolute = cacheLookup cache0 l.absolute :=
            hinv l.absolute h2f
          rcases hfs : fetch_link_status l.absolute net cache
            with ⟨status, cache1, fetched⟩
          have hcases :
              status = cachedStatus net cache0 l.absolute ∧
              (∀ u, (l.absolute :: seen).contains u = false →
                cacheLookup cache1 u = cacheLookup cache0 u) := by
            cases hc : cacheLookup cache l.absolute with
            | some v =>
                have hc0 : cacheLookup cache0 l.absolute = some v := hlk.symm.trans hc
                have hfs2 : (status, cache1, fetched) =
                    ((v : Option Nat), cache, false) := by
                  rw [← hfs]
                  unfold fetch_link_status
                  rw [hc]
                simp only [Prod.mk.injEq] at hfs2
                obtain ⟨hst, hc1, _⟩ := hfs2
                subst hst hc1
                refine ⟨by unfold cachedStatus; rw [hc0], ?_⟩
                intro u hu
                exact hinv u (contains_cons_false hu).2
            | none =>
                have hc0 : cacheLookup cache0 l.absolute = none := hlk.symm.trans hc
                have hfs2 : (status, cache1, fetched) =
                    (net l.absolute, cacheStore cache l.absolute (net l.absolute),
                     true) := by
                  rw [← hfs]
                  unfold fetch_link_status
                  rw [hc]
                simp only [Prod.mk.injEq] at hfs2
                obtain ⟨hst, hc1, _⟩ := hfs2
                subst hst hc1
                refine ⟨by unfold cachedStatus; rw [hc0], ?_⟩
                intro u hu
                obtain ⟨hne, hu2⟩ := contains_cons_false hu
                rw [cacheLookup_store_ne _ (by simpa using hne)]
                exact hinv u hu2
          obtain ⟨hst, hinv2⟩ := hcases
          subst hst
          obtain ⟨ih1, ih2⟩ := ih cache1 (l.absolute :: seen) hinv2
          simp only [brokenGo, consideredGo, if_neg h1, if_neg h2, hfs]
          constructor
          · by_cases hbr : isBroken (cachedStatus net cache0 l.absolute)
            · rw [List.filterMap_cons]
              simp only [if_pos hbr]
              exact congrArg _ ih1
            · rw [List.filterMap_cons]
              simp only [if_neg hbr]
              exact ih1
          · rw [List.map_cons]
            by_cases hbr : isBroken (cachedStatus net cache0 l.absolute)
            · rw [if_pos hbr]
              cases fetched
              · exact List.Sublist.cons _ ih2
              · exact List.Sublist.cons₂ _ ih2
            · rw [if_neg hbr]
              cases fetched
              · exact List.Sublist.cons _ ih2
              · exact List.Sublist.cons₂ _ ih2

lemma nodup_count_le_one {α : Type} [BEq α] [LawfulBEq α] :
    ∀ {l : List α}, l.Nodup → ∀ u, l.count u ≤ 1 := by
  intro l
  induction l with
  | nil => intro _ u; simp
  | cons x xs ih =>
      intro h u
      rw [List.nodup_cons] at h
      obtain ⟨hx, hxs⟩ := h
      rw [List.count_cons]
      by_cases hux : x = u
      · subst hux
        have h0 : xs.count x = 0 := List.count_eq_zero.mpr hx
        simp [h0]
      · have h0 : (x == u) = false := by simpa using hux
        rw [h0]
        simpa using ih hxs u

/-- C8: the broken-link check considers exactly the links whose host equals
the page's own host, de-duplicated by absolute URL within the page; it
emits a Broken link issue for a considered link if and only if its
cache-resolved status is unknown (transport failure) or at least 400; and
within the page it invokes the fetcher at most once per distinct URL. -/
theorem C8_broken_link_classification :
    ∀ (page_url base_host : Str) (links : List PageLink)
      (net : Str → Option Nat) (cache : Cache),
      consideredLinks links base_host =
        dedupAbsGo (links.filter (fun l => l.host == base_host)) []
      ∧ (detect_broken_links page_url links base_host net cache).1 =
          (consideredLinks links base_host).filterMap
            (fun l =>
              if isBroken (cachedStatus net cache l.absolute) then
                some (brokenIssueOf page_url l (cachedStatus net cache l.absolute))
              else none)
      ∧ (∀ u, ((detect_broken_links page_url links base_host net cache).2.2).count u
            ≤ 1) := by
  intro page_url base_host links net cache
  refine ⟨considered_eq_filter_dedup links [], ?_, ?_⟩
  · exact (brokenGo_spec page_url base_host net cache links cache []
      (fun u _ => rfl)).1
  · intro u
    have hlog := (brokenGo_spec page_url base_host net cache links cache []
      (fun u _ => rfl)).2
    refine le_trans (hlog.count_le u) ?_
    exact nodup_count_le_one (considered_abs_not_seen links []).1 u

/-! ## Claim C6 -/

lemma ofNat_shift_toNat_gt :
    ∀ n, n < 91 → 65 ≤ n → 96 < (Char.ofNat (n + 32)).toNat := by decide

lemma toLower_eq_of_lt {c x : Char} (hc : c.toNat < 97) (h : x.toLower = c) :
    x = c := by
  simp only [Char.toLower] at h
  split at h
  next hcond =>
    exfalso
    have h65 : 65 ≤ x.toNat := hcond.1
    have h90 : x.toNat ≤ 90 := hcond.2
    have := ofNat_shift_toNat_gt x.toNat (by omega) h65
    rw [h] at this
    omega
  next => exact h

lemma noChar_lowerStr {c : Char} (hc : c.toNat < 97) {s : Str}
    (h : c ∉ s) : c ∉ lowerStr s := by
  intro hmem
  rcases List.mem_map.mp hmem with ⟨x, hx, hxl⟩
  exact h (by rwa [toLower_eq_of_lt hc hxl] at hx)

lemma noHash_append {a b : Str} (ha : '#' ∉ a) (hb : '#' ∉ b) :
    '#' ∉ a ++ b := by
  intro h
  rcases List.mem_append.mp h with h | h
  · exact ha h
  · exact hb h

lemma noHash_cons {c : Char} {b : Str} (hc : c ≠ '#') (hb : '#' ∉ b) :
    '#' ∉ c :: b := by
  intro h
  rcases List.mem_cons.mp h with h | h
  · exact hc h.symm
  · exact hb h

lemma not_mem_of_contains_false {l : Str} {c : Char}
    (h : ¬ l.contains c = true) : c ∉ l :=
  fun hmem => h (List.elem_eq_true_of_mem hmem)

lemma splitScheme_no_hash {d u : Str} (hd : '#' ∉ d) :
    '#' ∉ (splitScheme d u).1 := by
  intro hmem
  unfold splitScheme at hmem
  cases hf : u.findIdx? (· == ':') with
  | none => rw [hf] at hmem; exact hd hmem
  | some i =>
      rw [hf] at hmem
      dsimp only at hmem
      by_cases hcond : (decide (0 < i) && (u.take i).all schemeChar &&
          (u.head?.map Char.isAlpha).getD false) = true
      · rw [if_pos hcond] at hmem
        rcases List.mem_map.mp hmem with ⟨x, hx, hxl⟩
        have hx2 : x = '#' := toLower_eq_of_lt (by decide) hxl
        subst hx2
        simp only [Bool.and_eq_true] at hcond
        have := List.all_eq_true.mp hcond.1.2 _ hx
        simp [schemeChar] at this
      · rw [if_neg hcond] at hmem
        exact hd hmem

lemma splitFragQuery_no_hash {scheme netloc url : Str}
    (h1 : '#' ∉ scheme) (h2 : '#' ∉ netloc) :
    '#' ∉ (splitFragQuery scheme netloc url).scheme ∧
    '#' ∉ (splitFragQuery scheme netloc url).netloc ∧
    '#' ∉ (splitFragQuery scheme netloc url).path ∧
    '#' ∉ (splitFragQuery scheme netloc url).query := by
  have hfr : '#' ∉ (if url.contains '#' then
      (url.takeWhile (· ≠ '#'), (url.dropWhile (· ≠ '#')).drop 1)
    else (url, ([] : Str))).1 := by
    split
    · intro hm
      have := List.mem_takeWhile_imp hm
      simp at this
    · next hnc => exact not_mem_of_contains_false hnc
  simp only [splitFragQuery]
  generalize hG : (if url.contains '#' then
      (url.takeWhile (· ≠ '#'), (url.dropWhile (· ≠ '#')).drop 1)
    else (url, ([] : Str))) = fr at hfr ⊢
  obtain ⟨frU, frF⟩ := fr
  dsimp only at hfr ⊢
  refine ⟨h1, h2, ?_, ?_⟩
  · split
    · intro hm
      exact hfr ((List.takeWhile_sublist _).subset hm)
    · exact hfr
  · split
    · intro hm
      exact hfr ((List.dropWhile_sublist _).subset ((List.drop_sublist 1 _).subset hm))
    · simp

lemma urlsplitE_no_hash {d u : Str} {r : SplitResult} (hd : '#' ∉ d)
    (h : urlsplitE d u = Except.ok r) :
    '#' ∉ r.scheme ∧ '#' ∉ r.netloc ∧ '#' ∉ r.path ∧ '#' ∉ r.query := by
  unfold urlsplitE at h
  dsimp only at h
  have hscheme : '#' ∉ (splitScheme d (sanitizeUrl u)).1 := splitScheme_no_hash hd
  split at h
  · split at h
    · cases h
    · split at h
      · cases h
      · split at h
        · cases h
        · simp only [Except.ok.injEq] at h
          subst h
          refine splitFragQuery_no_hash hscheme ?_
          intro hm
          have := List.mem_takeWhile_imp hm
          simp at this
  · simp only [Except.ok.injEq] at h
    subst h
    exact splitFragQuery_no_hash hscheme (by simp)

lemma splitParams_subset (u : Str) :
    (splitParams u).1 ⊆ u ∧ (splitParams u).2 ⊆ u := by
  unfold splitParams
  cases hio : (if u.contains '/' then findIdxFrom ';' ((rfindIdx '/' u).getD 0) u
      else u.findIdx? (· == ';')) with
  | none => exact ⟨fun c hc => hc, by simp⟩
  | some i => exact ⟨(List.take_sublist _ _).subset, (List.drop_sublist _ _).subset⟩

lemma urlparseE_no_hash {d u : Str} {r : ParseResult} (hd : '#' ∉ d)
    (h : urlparseE d u = Except.ok r) :
    '#' ∉ r.scheme ∧ '#' ∉ r.netloc ∧ '#' ∉ r.path ∧ '#' ∉ r.params ∧
      '#' ∉ r.query := by
  unfold urlparseE at h
  cases hs : urlsplitE d u with
  | error e => rw [hs] at h; cases h
  | ok s =>
      rw [hs] at h
      dsimp only at h
      obtain ⟨g1, g2, g3, g4⟩ := urlsplitE_no_hash hd hs
      split at h
      · simp only [Except.ok.injEq] at h
        subst h
        exact ⟨g1, g2, fun hc => g3 ((splitParams_subset s.path).1 hc),
               fun hc => g3 ((splitParams_subset s.path).2 hc), g4⟩
      · simp only [Except.ok.injEq] at h
        subst h
        exact ⟨g1, g2, g3, by simp, g4⟩

lemma urlunsplit_no_hash {scheme netloc path query : Str}
    (h1 : '#' ∉ scheme) (h2 : '#' ∉ netloc) (h3 : '#' ∉ path)
    (h5 : '#' ∉ query) : '#' ∉ urlunsplit scheme netloc path query [] := by
  unfold urlunsplit
  have hstep1 : '#' ∉ (if path ≠ [] ∧ path.take 1 ≠ str "/" then '/' :: path
      else path) := by
    split
    · exact noHash_cons (by decide) h3
    · exact h3
  have hstep2 : '#' ∉ (if netloc ≠ [] ∨ (path ≠ [] ∧ (str "//").isPrefixOf path) then
      str "//" ++ netloc ++ (if path ≠ [] ∧ path.take 1 ≠ str "/" then '/' :: path
        else path)
    else path) := by
    split
    · exact noHash_append (noHash_append (by decide) h2) hstep1
    · exact h3
  dsimp only
  rw [if_neg (by simp : ¬ (([] : Str) ≠ []))]
  generalize hC : (if netloc ≠ [] ∨ (path ≠ [] ∧ (str "//").isPrefixOf path) then
      str "//" ++ netloc ++ (if path ≠ [] ∧ path.take 1 ≠ str "/" then '/' :: path
        else path)
    else path) = C at hstep2 ⊢
  have hstep3 : '#' ∉ (if scheme ≠ [] then scheme ++ ':' :: C else C) := by
    split
    · exact noHash_append h1 (noHash_cons (by decide) hstep2)
    · exact hstep2
  split
  · exact noHash_append hstep3 (noHash_cons (by decide) h5)
  · exact hstep3

lemma urlunparse_no_hash {r : ParseResult} (h1 : '#' ∉ r.scheme)
    (h2 : '#' ∉ r.netloc) (h3 : '#' ∉ r.path) (h4 : '#' ∉ r.params)
    (h5 : '#' ∉ r.query) (h6 : r.fragment = []) : '#' ∉ urlunparse r := by
  unfold urlunparse
  rw [h6]
  dsimp only
  have hurl : '#' ∉ (if r.params ≠ [] then r.path ++ ';' :: r.params
      else r.path) := by
    split
    · exact noHash_append h3 (noHash_cons (by decide) h4)
    · exact h3
  exact urlunsplit_no_hash h1 h2 hurl h5

lemma urldefragE_no_hash {url d frag : Str}
    (h : urldefragE url = Except.ok (d, frag)) : '#' ∉ d := by
  unfold urldefragE at h
  split at h
  · cases hp : urlparseE [] url with
    | error e => rw [hp] at h; cases h
    | ok p =>
        rw [hp] at h
        dsimp only at h
        simp only [Except.ok.injEq, Prod.mk.injEq] at h
        obtain ⟨hd, _⟩ := h
        subst hd
        obtain ⟨g1, g2, g3, g4, g5⟩ := urlparseE_no_hash (by simp) hp
        exact urlunparse_no_hash g1 g2 g3 g4 g5 rfl
  · next hnc =>
      simp only [Except.ok.injEq, Prod.mk.injEq] at h
      obtain ⟨hd, _⟩ := h
      subst hd
      exact not_mem_of_contains_false hnc

lemma resolve_href_no_hash {base href target host : Str} {wa : Bool}
    (h : resolve_href base href = Except.ok (some (target, host, wa))) :
    '#' ∉ target := by
  unfold resolve_href at h
  dsimp only at h
  split at h
  · simp at h
  · split at h
    · simp at h
    · split at h
      · simp at h
      · rename_i target0 wa0 hts
        split at h
        · simp at h
        · rename_i target2 f2 hdf
          split at h
          · simp at h
          · rename_i parsed hps
            simp only [Except.ok.injEq, Option.some.injEq, Prod.mk.injEq] at h
            obtain ⟨ht, _, _⟩ := h
            subst ht
            exact urldefragE_no_hash hdf

lemma extractLinksGo_inv {base_url base_host : Str} (hbh : base_host ≠ []) :
    ∀ (anchors : List Anchor) (links : List PageLink),
      extractLinksGo base_url base_host anchors = Except.ok links →
      ∀ l ∈ links, '#' ∉ l.absolute ∧ l.host ≠ [] := by
  intro anchors
  induction anchors with
  | nil =>
      intro links h
      simp only [extractLinksGo, Except.ok.injEq] at h
      subst h
      intro l hl
      cases hl
  | cons a rest ih =>
      intro links h
      simp only [extractLinksGo] at h
      cases ha : a.href with
      | none =>
          rw [ha] at h
          exact ih links h
      | some hh =>
          rw [ha] at h
          dsimp only at h
          split at h
          · exact ih links h
          · split at h
            · simp at h
            · exact ih links h
            · rename_i absolute2 host2 wa2 hres
              split at h
              · simp at h
              · rename_i ls2 hgo
                simp only [Except.ok.injEq] at h
                subst h
                intro l hl
                rcases List.mem_cons.mp hl with rfl | hl2
                · refine ⟨resolve_href_no_hash hres, ?_⟩
                  dsimp only
                  split
                  · next hne => exact hne
                  · exact hbh
                · exact ih ls2 hgo l hl2

/-- C6: every link produced by link extraction, for any anchors and any base
page URL whose parsed host is non-empty, has an absolute URL containing no
fragment marker and a non-empty host field. -/
theorem C6_resolved_links_invariant :
    ∀ (anchors : List Anchor) (base_url : Str) (pb : ParseResult)
      (links : List PageLink),
      urlparseE [] base_url = Except.ok pb → pb.netloc ≠ [] →
      extract_page_links anchors base_url = Except.ok links →
      ∀ l ∈ links, '#' ∉ l.absolute ∧ l.host ≠ [] := by
  intro anchors base_url pb links hpb hnet h
  unfold extract_page_links at h
  rw [hpb] at h
  have hbh : lowerStr pb.netloc ≠ [] := by
    simpa [lowerStr] using hnet
  exact extractLinksGo_inv hbh anchors links h

/-- C6 witness: a concrete page with an anchor whose href carries a
fragment; the resolved link has a defragmented absolute URL and the page's
host. -/
theorem C6_resolved_links_invariant_witness :
    '#' ∉ (⟨str "/about#top", str "https://example.com/about",
            str "example.com", str "About", false⟩ : PageLink).absolute
    ∧ (⟨str "/about#top", str "https://example.com/about",
        str "example.com", str "About", false⟩ : PageLink).host ≠ [] :=
  C6_resolved_links_invariant [⟨some (str "/about#top"), str "About"⟩]
    (str "https://example.com/x")
    ⟨str "https", str "example.com", str "/x", [], [], []⟩
    [⟨str "/about#top", str "https://example.com/about", str "example.com",
      str "About", false⟩]
    (by rfl) (by decide) (by rfl)
    ⟨str "/about#top", str "https://example.com/about", str "example.com",
     str "About", false⟩ (by decide)

/-! ## Claim C4

The URL parser raises ValueError on a netloc with an unmatched square
bracket, on a bracketed host (which the model rejects conservatively),
and via _checknetloc on a non-ASCII netloc (which the model rejects
conservatively, since CPython only accepts those whose NFKC normalization
stays clean); on all-ASCII square-bracket-free strings every parse in the
resolver succeeds, and there the model agrees exactly with CPython.
noBrk s says s contains no square bracket, asciiStr s that every
character of s is ASCII, and cleanStr s their conjunction. -/

def noBrk (s : Str) : Prop := '[' ∉ s ∧ ']' ∉ s

instance (s : Str) : Decidable (noBrk s) :=
  inferInstanceAs (Decidable ('[' ∉ s ∧ ']' ∉ s))

def asciiStr (s : Str) : Prop := ∀ c ∈ s, c.toNat ≤ 127

instance (s : Str) : Decidable (asciiStr s) :=
  inferInstanceAs (Decidable (∀ c ∈ s, c.toNat ≤ 127))

def cleanStr (s : Str) : Prop := noBrk s ∧ asciiStr s

instance (s : Str) : Decidable (cleanStr s) :=
  inferInstanceAs (Decidable (noBrk s ∧ asciiStr s))

lemma noBrk_mono {s t : Str} (hsub : t ⊆ s) (h : noBrk s) : noBrk t :=
  ⟨fun hm => h.1 (hsub hm), fun hm => h.2 (hsub hm)⟩

lemma noBrk_append {a b : Str} (ha : noBrk a) (hb : noBrk b) : noBrk (a ++ b) := by
  constructor
  · intro hm
    rcases List.mem_append.mp hm with hm | hm
    · exact ha.1 hm
    · exact hb.1 hm
  · intro hm
    rcases List.mem_append.mp hm with hm | hm
    · exact ha.2 hm
    · exact hb.2 hm

lemma noBrk_cons {c : Char} {b : Str} (hc : c ≠ '[' ∧ c ≠ ']') (hb : noBrk b) :
    noBrk (c :: b) := by
  constructor
  · intro hm
    rcases List.mem_cons.mp hm with hm | hm
    · exact hc.1 hm.symm
    · exact hb.1 hm
  · intro hm
    rcases List.mem_cons.mp hm with hm | hm
    · exact hc.2 hm.symm
    · exact hb.2 hm

lemma noBrk_nil : noBrk [] := ⟨by simp, by simp⟩

lemma noBrk_lowerStr {s : Str} (h : noBrk s) : noBrk (lowerStr s) :=
  ⟨noChar_lowerStr (by decide) h.1, noChar_lowerStr (by decide) h.2⟩

lemma asciiStr_mono {s t : Str} (hsub : t ⊆ s) (h : asciiStr s) : asciiStr t :=
  fun c hc => h c (hsub hc)

lemma asciiStr_append {a b : Str} (ha : asciiStr a) (hb : asciiStr b) :
    asciiStr (a ++ b) := by
  intro c hc
  rcases List.mem_append.mp hc with hc | hc
  · exact ha c hc
  · exact hb c hc

lemma asciiStr_cons {c : Char} {b : Str} (hc : c.toNat ≤ 127)
    (hb : asciiStr b) : asciiStr (c :: b) := by
  intro x hx
  rcases List.mem_cons.mp hx with rfl | hx
  · exact hc
  · exact hb x hx

lemma asciiStr_nil : asciiStr [] := fun c hc => absurd hc (List.not_mem_nil c)

lemma ofNat_shift_toNat_le :
    ∀ n, n < 91 → 65 ≤ n → (Char.ofNat (n + 32)).toNat ≤ 127 := by decide

lemma toLower_ascii {x : Char} (h : x.toNat ≤ 127) : x.toLower.toNat ≤ 127 := by
  simp only [Char.toLower]
  split
  next hcond =>
    have h65 : 65 ≤ x.toNat := hcond.1
    have h90 : x.toNat ≤ 90 := hcond.2
    exact ofNat_shift_toNat_le x.toNat (by omega) h65
  next => exact h

lemma asciiStr_lowerStr {s : Str} (h : asciiStr s) : asciiStr (lowerStr s) := by
  intro c hc
  rcases List.mem_map.mp hc with ⟨x, hx, rfl⟩
  exact toLower_ascii (h x hx)

lemma cleanStr_mono {s t : Str} (hsub : t ⊆ s) (h : cleanStr s) : cleanStr t :=
  ⟨noBrk_mono hsub h.1, asciiStr_mono hsub h.2⟩

lemma cleanStr_append {a b : Str} (ha : cleanStr a) (hb : cleanStr b) :
    cleanStr (a ++ b) :=
  ⟨noBrk_append ha.1 hb.1, asciiStr_append ha.2 hb.2⟩

lemma cleanStr_cons {c : Char} {b : Str}
    (hc : c ≠ '[' ∧ c ≠ ']' ∧ c.toNat ≤ 127) (hb : cleanStr b) :
    cleanStr (c :: b) :=
  ⟨noBrk_cons ⟨hc.1, hc.2.1⟩ hb.1, asciiStr_cons hc.2.2 hb.2⟩

lemma cleanStr_nil : cleanStr [] := ⟨noBrk_nil, asciiStr_nil⟩

lemma cleanStr_lowerStr {s : Str} (h : cleanStr s) : cleanStr (lowerStr s) :=
  ⟨noBrk_lowerStr h.1, asciiStr_lowerStr h.2⟩

lemma contains_false_of_not_mem {l : Str} {c : Char} (h : c ∉ l) :
    l.contains c = false := by
  cases hb : l.contains c
  · rfl
  · exact absurd (List.elem_iff.mp hb) h

lemma sanitizeUrl_subset (s : Str) : sanitizeUrl s ⊆ s := by
  intro c hc
  unfold sanitizeUrl at hc
  exact (List.dropWhile_sublist _).subset ((List.filter_sublist _).subset hc)

lemma splitScheme_snd_subset (d v : Str) : (splitScheme d v).2 ⊆ v := by
  unfold splitScheme
  cases hf : v.findIdx? (· == ':') with
  | none => exact fun c hc => hc
  | some i =>
      dsimp only
      by_cases hcond : (decide (0 < i) && (v.take i).all schemeChar &&
          (v.head?.map Char.isAlpha).getD false) = true
      · rw [if_pos hcond]
        exact (List.drop_sublist _ _).subset
      · rw [if_neg hcond]
        exact fun c hc => hc

lemma splitScheme_fst_clean {d v : Str} (hd : cleanStr d) (hv : cleanStr v) :
    cleanStr (splitScheme d v).1 := by
  unfold splitScheme
  cases hf : v.findIdx? (· == ':') with
  | none => exact hd
  | some i =>
      dsimp only
      by_cases hcond : (decide (0 < i) && (v.take i).all schemeChar &&
          (v.head?.map Char.isAlpha).getD false) = true
      · rw [if_pos hcond]
        exact cleanStr_lowerStr (cleanStr_mono (List.take_sublist _ _).subset hv)
      · rw [if_neg hcond]
        exact hd

lemma splitNetloc_fst_subset (v : Str) : (splitNetloc v).1 ⊆ v := by
  intro c hc
  unfold splitNetloc at hc
  exact (List.drop_sublist 2 v).subset ((List.takeWhile_sublist _).subset hc)

lemma splitNetloc_snd_subset (v : Str) : (splitNetloc v).2 ⊆ v := by
  intro c hc
  unfold splitNetloc at hc
  exact (List.drop_sublist 2 v).subset ((List.dropWhile_sublist _).subset hc)

lemma splitFragQuery_subsets (scheme netloc url : Str) :
    (splitFragQuery scheme netloc url).path ⊆ url ∧
    (splitFragQuery scheme netloc url).query ⊆ url ∧
    (splitFragQuery scheme netloc url).fragment ⊆ url ∧
    (splitFragQuery scheme netloc url).scheme = scheme ∧
    (splitFragQuery scheme netloc url).netloc = netloc := by
  have hfr : ((if url.contains '#' then
      (url.takeWhile (· ≠ '#'), (url.dropWhile (· ≠ '#')).drop 1)
    else (url, ([] : Str))).1 ⊆ url) ∧
      ((if url.contains '#' then
      (url.takeWhile (· ≠ '#'), (url.dropWhile (· ≠ '#')).drop 1)
    else (url, ([] : Str))).2 ⊆ url) := by
    split
    · exact ⟨(List.takeWhile_sublist _).subset,
        fun c hc => (List.dropWhile_sublist _).subset
          ((List.drop_sublist 1 _).subset hc)⟩
    · exact ⟨fun c hc => hc, by simp⟩
  simp only [splitFragQuery]
  generalize hG : (if url.contains '#' then
      (url.takeWhile (· ≠ '#'), (url.dropWhile (· ≠ '#')).drop 1)
    else (url, ([] : Str))) = fr at hfr
  obtain ⟨frU, frF⟩ := fr
  dsimp only at hfr ⊢
  obtain ⟨hfrU, hfrF⟩ := hfr
  split
  · exact ⟨fun c hc => hfrU ((List.takeWhile_sublist _).subset hc),
      fun c hc => hfrU ((List.dropWhile_sublist _).subset
        ((List.drop_sublist 1 _).subset hc)),
      hfrF, by trivial, by trivial⟩
  · exact ⟨hfrU, by simp, hfrF, by trivial, by trivial⟩

lemma urlsplitE_ok_clean {d u : Str} (hd : cleanStr d) (hu : cleanStr u) :
    ∃ r, urlsplitE d u = Except.ok r ∧ cleanStr r.scheme ∧ cleanStr r.netloc ∧
      cleanStr r.path ∧ cleanStr r.query ∧ cleanStr r.fragment := by
  have hsan : cleanStr (sanitizeUrl u) := cleanStr_mono (sanitizeUrl_subset u) hu
  have hsp2 : cleanStr (splitScheme d (sanitizeUrl u)).2 :=
    cleanStr_mono (splitScheme_snd_subset d _) hsan
  have hsp1 : cleanStr (splitScheme d (sanitizeUrl u)).1 :=
    splitScheme_fst_clean hd hsan
  unfold urlsplitE
  dsimp only
  split
  · have hnl : cleanStr (splitNetloc (splitScheme d (sanitizeUrl u)).2).1 :=
      cleanStr_mono (splitNetloc_fst_subset _) hsp2
    have h1 : ((splitNetloc (splitScheme d (sanitizeUrl u)).2).1).contains '['
        = false := contains_false_of_not_mem hnl.1.1
    have h2 : ((splitNetloc (splitScheme d (sanitizeUrl u)).2).1).contains ']'
        = false := contains_false_of_not_mem hnl.1.2
    have hok : checknetlocOk (splitNetloc (splitScheme d (sanitizeUrl u)).2).1
        = true := by
      simp only [checknetlocOk, List.all_eq_true, decide_eq_true_eq]
      exact fun c hc => hnl.2 c hc
    rw [if_neg (by rw [h1, h2]; simp)]
    rw [if_neg (by rw [h1]; simp)]
    rw [if_neg (by rw [hok]; simp)]
    refine ⟨_, rfl, ?_⟩
    obtain ⟨hp, hq, hf, hs, hn⟩ := splitFragQuery_subsets
      (splitScheme d (sanitizeUrl u)).1
      (splitNetloc (splitScheme d (sanitizeUrl u)).2).1
      (splitNetloc (splitScheme d (sanitizeUrl u)).2).2
    have hrest : cleanStr (splitNetloc (splitScheme d (sanitizeUrl u)).2).2 :=
      cleanStr_mono (splitNetloc_snd_subset _) hsp2
    rw [hs, hn]
    exact ⟨hsp1, hnl, cleanStr_mono hp hrest, cleanStr_mono hq hrest,
      cleanStr_mono hf hrest⟩
  · refine ⟨_, rfl, ?_⟩
    obtain ⟨hp, hq, hf, hs, hn⟩ := splitFragQuery_subsets
      (splitScheme d (sanitizeUrl u)).1 [] (splitScheme d (sanitizeUrl u)).2
    rw [hs, hn]
    exact ⟨hsp1, cleanStr_nil, cleanStr_mono hp hsp2, cleanStr_mono hq hsp2,
      cleanStr_mono hf hsp2⟩

lemma urlparseE_ok_clean {d u : Str} (hd : cleanStr d) (hu : cleanStr u) :
    ∃ r, urlparseE d u = Except.ok r ∧ cleanStr r.scheme ∧ cleanStr r.netloc ∧
      cleanStr r.path ∧ cleanStr r.params ∧ cleanStr r.query ∧
      cleanStr r.fragment := by
  obtain ⟨s, hs, g1, g2, g3, g4, g5⟩ := urlsplitE_ok_clean hd hu
  unfold urlparseE
  rw [hs]
  dsimp only
  split
  · exact ⟨_, rfl, g1, g2, cleanStr_mono (splitParams_subset s.path).1 g3,
      cleanStr_mono (splitParams_subset s.path).2 g3, g4, g5⟩
  · exact ⟨_, rfl, g1, g2, g3, cleanStr_nil, g4, g5⟩

lemma urlunsplit_clean {scheme netloc path query fragment : Str}
    (h1 : cleanStr scheme) (h2 : cleanStr netloc) (h3 : cleanStr path)
    (h4 : cleanStr query) (h5 : cleanStr fragment) :
    cleanStr (urlunsplit scheme netloc path query fragment) := by
  unfold urlunsplit
  have hstep1 : cleanStr (if path ≠ [] ∧ path.take 1 ≠ str "/" then '/' :: path
      else path) := by
    split
    · exact cleanStr_cons (by decide) h3
    · exact h3
  have hstep2 : cleanStr (if netloc ≠ [] ∨ (path ≠ [] ∧ (str "//").isPrefixOf path) then
      str "//" ++ netloc ++ (if path ≠ [] ∧ path.take 1 ≠ str "/" then '/' :: path
        else path)
    else path) := by
    split
    · exact cleanStr_append (cleanStr_append (by decide) h2) hstep1
    · exact h3
  dsimp only
  generalize hC : (if netloc ≠ [] ∨ (path ≠ [] ∧ (str "//").isPrefixOf path) then
      str "//" ++ netloc ++ (if path ≠ [] ∧ path.take 1 ≠ str "/" then '/' :: path
        else path)
    else path) = C at hstep2 ⊢
  have hstep3 : cleanStr (if scheme ≠ [] then scheme ++ ':' :: C else C) := by
    split
    · exact cleanStr_append h1 (cleanStr_cons (by decide) hstep2)
    · exact hstep2
  generalize hD : (if scheme ≠ [] then scheme ++ ':' :: C else C) = D at hstep3 ⊢
  have hstep4 : cleanStr (if query ≠ [] then D ++ '?' :: query else D) := by
    split
    · exact cleanStr_append hstep3 (cleanStr_cons (by decide) h4)
    · exact hstep3
  generalize hE : (if query ≠ [] then D ++ '?' :: query else D) = E at hstep4 ⊢
  split
  · exact cleanStr_append hstep4 (cleanStr_cons (by decide) h5)
  · exact hstep4

lemma urlunparse_clean {r : ParseResult} (h1 : cleanStr r.scheme)
    (h2 : cleanStr r.netloc) (h3 : cleanStr r.path) (h4 : cleanStr r.params)
    (h5 : cleanStr r.query) (h6 : cleanStr r.fragment) :
    cleanStr (urlunparse r) := by
  unfold urlunparse
  dsimp only
  have hurl : cleanStr (if r.params ≠ [] then r.path ++ ';' :: r.params
      else r.path) := by
    split
    · exact cleanStr_append h3 (cleanStr_cons (by decide) h4)
    · exact h3
  exact urlunsplit_clean h1 h2 hurl h5 h6

lemma splitSlashAux_chars :
    ∀ (l acc : Str) (p : Str), p ∈ splitSlashAux l acc →
      ∀ c ∈ p, c ∈ l ∨ c ∈ acc := by
  intro l
  induction l with
  | nil =>
      intro acc p hp c hc
      simp only [splitSlashAux, List.mem_singleton] at hp
      subst hp
      exact Or.inr (List.mem_reverse.mp hc)
  | cons x xs ih =>
      intro acc p hp c hc
      simp only [splitSlashAux] at hp
      split at hp
      · rcases List.mem_cons.mp hp with rfl | hp2
        · exact Or.inr (List.mem_reverse.mp hc)
        · rcases ih [] p hp2 c hc with h | h
          · exact Or.inl (List.mem_cons_of_mem _ h)
          · cases h
      · rcases ih (x :: acc) p hp c hc with h | h
        · exact Or.inl (List.mem_cons_of_mem _ h)
        · rcases List.mem_cons.mp h with rfl | h2
          · exact Or.inl (List.mem_cons_self _ _)
          · exact Or.inr h2

lemma splitSlash_clean {s : Str} (hs : cleanStr s) :
    ∀ p ∈ splitSlash s, cleanStr p := by
  intro p hp
  refine cleanStr_mono (fun c hc => ?_) hs
  rcases splitSlashAux_chars s [] p hp c hc with h | h
  · exact h
  · cases h

lemma joinSlash_clean : ∀ (ps : List Str), (∀ p ∈ ps, cleanStr p) →
    cleanStr (joinSlash ps) := by
  intro ps
  induction ps with
  | nil => intro _; exact cleanStr_nil
  | cons x xs ih =>
      intro h
      cases xs with
      | nil => exact h x (List.mem_singleton.mpr rfl)
      | cons y ys =>
          exact cleanStr_append (h x (List.mem_cons_self _ _))
            (cleanStr_cons (by decide)
              (ih (fun p hp => h p (List.mem_cons_of_mem _ hp))))

lemma resolveSegments_mem :
    ∀ (segs : List Str) (acc : List Str) (p : Str),
      p ∈ resolveSegments segs acc → p ∈ segs ∨ p ∈ acc := by
  intro segs
  induction segs with
  | nil => intro acc p hp; exact Or.inr hp
  | cons s rest ih =>
      intro acc p hp
      simp only [resolveSegments] at hp
      split at hp
      · rcases ih _ p hp with h | h
        · exact Or.inl (List.mem_cons_of_mem _ h)
        · right
          split at h
          · exact h
          · exact (List.dropLast_sublist _).subset h
      · split at hp
        · rcases ih _ p hp with h | h
          · exact Or.inl (List.mem_cons_of_mem _ h)
          · exact Or.inr h
        · rcases ih _ p hp with h | h
          · exact Or.inl (List.mem_cons_of_mem _ h)
          · rcases List.mem_append.mp h with h2 | h2
            · exact Or.inr h2
            · rcases List.mem_singleton.mp h2 with rfl
              exact Or.inl (List.mem_cons_self _ _)

lemma filterMiddle_mem :
    ∀ (ps : List Str) (p : Str), p ∈ filterMiddle ps → p ∈ ps ∨ p = [] := by
  intro ps p hp
  match ps with
  | [] => cases hp
  | [x] =>
      rcases List.mem_singleton.mp hp with rfl
      exact Or.inl (List.mem_singleton.mpr rfl)
  | x :: y :: ys =>
      simp only [filterMiddle] at hp
      rcases List.mem_cons.mp hp with rfl | hp2
      · exact Or.inl (List.mem_cons_self _ _)
      · rcases List.mem_append.mp hp2 with h2 | h2
        · have := (List.dropLast_sublist (y :: ys)).subset
            ((List.filter_sublist _).subset h2)
          exact Or.inl (List.mem_cons_of_mem _ this)
        · rcases List.mem_singleton.mp h2 with rfl
          have h3 : (y :: ys).getLastD [] = List.getLastD ys y :=
            List.getLastD_cons _ _ _
          rw [h3]
          exact Or.inl (List.mem_cons_of_mem _ (List.getLastD_mem_cons _ _))

lemma joinPaths_clean {bpath upath : Str} (hb : cleanStr bpath)
    (hu : cleanStr upath) : cleanStr (joinPaths bpath upath) := by
  have hbp : ∀ p ∈ splitSlash bpath, cleanStr p := splitSlash_clean hb
  have hup : ∀ p ∈ splitSlash upath, cleanStr p := splitSlash_clean hu
  have hbp2 : ∀ p ∈ (if (splitSlash bpath).getLastD [] ≠ [] then
      (splitSlash bpath).dropLast else splitSlash bpath), cleanStr p := by
    split
    · exact fun p hp => hbp p ((List.dropLast_sublist _).subset hp)
    · exact hbp
  have hsegs : ∀ p ∈ (if upath.take 1 = str "/" then splitSlash upath
      else filterMiddle ((if (splitSlash bpath).getLastD [] ≠ [] then
        (splitSlash bpath).dropLast else splitSlash bpath) ++ splitSlash upath)),
      cleanStr p := by
    split
    · exact hup
    · intro p hp
      rcases filterMiddle_mem _ p hp with h | rfl
      · rcases List.mem_append.mp h with h2 | h2
        · exact hbp2 p h2
        · exact hup p h2
      · exact cleanStr_nil
  unfold joinPaths
  dsimp only
  generalize hS : (if upath.take 1 = str "/" then splitSlash upath
      else filterMiddle ((if (splitSlash bpath).getLastD [] ≠ [] then
        (splitSlash bpath).dropLast else splitSlash bpath) ++ splitSlash upath))
      = segs at hsegs ⊢
  have hres : ∀ p ∈ resolveSegments segs [], cleanStr p := by
    intro p hp
    rcases resolveSegments_mem segs [] p hp with h | h
    · exact hsegs p h
    · cases h
  have hres2 : ∀ p ∈ (if segs.getLastD [] = str "." ∨ segs.getLastD [] = str ".."
      then resolveSegments segs [] ++ [[]] else resolveSegments segs []),
      cleanStr p := by
    split
    · intro p hp
      rcases List.mem_append.mp hp with h | h
      · exact hres p h
      · rcases List.mem_singleton.mp h with rfl
        exact cleanStr_nil
    · exact hres
  generalize hR : (if segs.getLastD [] = str "." ∨ segs.getLastD [] = str ".."
      then resolveSegments segs [] ++ [[]] else resolveSegments segs [])
      = resolved at hres2 ⊢
  split
  · exact (by decide : cleanStr (str "/"))
  · exact joinSlash_clean resolved hres2

lemma urljoinE_ok_clean {base url : Str} (hb : cleanStr base)
    (hu : cleanStr url) : ∃ t, urljoinE base url = Except.ok t ∧ cleanStr t := by
  unfold urljoinE
  split
  · exact ⟨url, rfl, hu⟩
  · split
    · exact ⟨base, rfl, hb⟩
    · obtain ⟨b, hbp, b1, b2, b3, b4, b5, b6⟩ := urlparseE_ok_clean cleanStr_nil hb
      rw [hbp]
      dsimp only
      obtain ⟨u2, hup, v1, v2, v3, v4, v5, v6⟩ := urlparseE_ok_clean b1 hu
      rw [hup]
      dsimp only
      split
      · exact ⟨url, rfl, hu⟩
      · split
        · exact ⟨_, rfl, urlunparse_clean v1 v2 v3 v4 v5 v6⟩
        · have hnet : cleanStr (if usesNetloc.contains u2.scheme && u2.netloc.isEmpty
              then b.netloc else u2.netloc) := by
            split
            · exact b2
            · exact v2
          split
          · refine ⟨_, rfl, urlunparse_clean v1 hnet b3 b4 ?_ v6⟩
            dsimp only
            split
            · exact b5
            · exact v5
          · exact ⟨_, rfl, urlunparse_clean v1 hnet (joinPaths_clean b3 v3) v4 v5 v6⟩

lemma urldefragE_ok_clean {url : Str} (hu : cleanStr url) :
    ∃ p, urldefragE url = Except.ok p ∧ cleanStr p.1 := by
  unfold urldefragE
  split
  · obtain ⟨r, hr, g1, g2, g3, g4, g5, g6⟩ := urlparseE_ok_clean cleanStr_nil hu
    rw [hr]
    dsimp only
    exact ⟨_, rfl,
      urlunparse_clean (r := ⟨r.scheme, r.netloc, r.path, r.params, r.query, []⟩)
        g1 g2 g3 g4 g5 cleanStr_nil⟩
  · exact ⟨_, rfl, hu⟩

/-- C4 counterexample: the link resolver is not exception-free.  For the
href "//[" it builds the target "https://[" whose parse raises ValueError
(Invalid IPv6 URL) inside urllib; for the href "//a℀b/x" the netloc
"a℀b" is non-ASCII and its NFKC normalization "a/cb" contains '/',
so _checknetloc raises ValueError.  In both cases resolve_href raises
instead of rejecting. -/
theorem C4_resolver_raises_counterexample :
    resolve_href (str "https://example.com/") (str "//[") = Except.error ()
    ∧ resolve_href (str "https://example.com/") (str "//a℀b/x") =
        Except.error () := by
  exact ⟨rfl, rfl⟩

/-- C4 (amended): the link resolver is total on all-ASCII inputs free of
square brackets: for every such base URL and raw href (including otherwise
malformed input) it returns either a resolved link or a rejection and never
raises.  Outside that domain the underlying URL parser can raise — on a
netloc with an unmatched square bracket (Invalid IPv6 URL) and, via
_checknetloc, on a non-ASCII netloc whose NFKC normalization introduces a
separator — and the exception propagates out of the resolver. -/
theorem C4_resolver_total :
    ∀ (base href : Str), cleanStr base → cleanStr href →
      ∃ v, resolve_href base href = Except.ok v := by
  intro base href hb hh
  have htr : cleanStr (pyStrip href) := by
    refine cleanStr_mono ?_ hh
    intro c hc
    unfold pyStrip pyRStrip pyLStrip at hc
    have := (List.dropWhile_sublist isPySpace).subset (List.mem_reverse.mp hc)
    rw [List.mem_reverse] at this
    exact (List.dropWhile_sublist isPySpace).subset this
  unfold resolve_href
  dsimp only
  split
  · exact ⟨none, rfl⟩
  · split
    · exact ⟨none, rfl⟩
    · have hstep : ∃ tb, (if (str "//").isPrefixOf (pyStrip href) then
          Except.ok (str "https:" ++ pyStrip href, true)
        else
          match urlparseE [] (pyStrip href) with
          | Except.error e => Except.error e
          | Except.ok p =>
              match urljoinE base (pyStrip href) with
              | Except.error e => Except.error e
              | Except.ok t => Except.ok (t, !p.netloc.isEmpty)) =
          Except.ok tb ∧ cleanStr tb.1 := by
        split
        · exact ⟨_, rfl, cleanStr_append (by decide) htr⟩
        · obtain ⟨p, hp, _⟩ := urlparseE_ok_clean cleanStr_nil htr
          rw [hp]
          obtain ⟨t, ht, htn⟩ := urljoinE_ok_clean hb htr
          rw [ht]
          exact ⟨_, rfl, htn⟩
      obtain ⟨⟨tb1, tb2⟩, htb, htb1⟩ := hstep
      rw [htb]
      dsimp only
      dsimp only at htb1
      obtain ⟨⟨d2, f2⟩, hdp, hdp1⟩ := urldefragE_ok_clean htb1
      rw [hdp]
      dsimp only
      dsimp only at hdp1
      obtain ⟨pr, hpr, _⟩ := urlparseE_ok_clean cleanStr_nil hdp1
      rw [hpr]
      exact ⟨_, rfl⟩

/-- C4 witness: the amended totality theorem at concrete all-ASCII
bracket-free inputs, including a malformed href that is merely rejected. -/
theorem C4_resolver_total_witness :
    resolve_href (str "https://example.com/x") (str "/about#top") =
      Except.ok (some (str "https://example.com/about", str "example.com", false))
    ∧ (resolve_href (str "https://example.com/x") (str "mailto:a@b")).isOk = true := by
  constructor
  · obtain ⟨v, hv⟩ := C4_resolver_total (str "https://example.com/x")
      (str "/about#top") (by decide) (by decide)
    rw [show v = some (str "https://example.com/about", str "example.com", false)
      from by rw [← Except.ok.injEq]; rw [← hv]; rfl] at hv
    exact hv
  · obtain ⟨v, hv⟩ := C4_resolver_total (str "https://example.com/x")
      (str "mailto:a@b") (by decide) (by decide)
    rw [hv]
    rfl

/-! ## Claim C1 -/

lemma get_setTaskState :
    ∀ (l : List CTask) (i : Nat) (s : TState) (t : CTask),
      l.get? i = some t →
      (setTaskState l i s).get? i = some { t with state := s } := by
  intro l
  induction l with
  | nil => intro i s t h; cases h
  | cons x xs ih =>
      intro i s t h
      cases i with
      | zero =>
          rw [List.get?_cons_zero] at h
          injection h with h
          subst h
          rfl
      | succ n =>
          rw [List.get?_cons_succ] at h
          exact ih n s t h

lemma countP_setTaskState (p : CTask → Bool) :
    ∀ (l : List CTask) (i : Nat) (s : TState) (t : CTask),
      l.get? i = some t →
      (setTaskState l i s).countP p + (if p t then 1 else 0) =
        l.countP p + (if p { t with state := s } then 1 else 0) := by
  intro l
  induction l with
  | nil => intro i s t h; cases h
  | cons x xs ih =>
      intro i s t h
      cases i with
      | zero =>
          rw [List.get?_cons_zero] at h
          injection h with h
          subst h
          simp only [setTaskState, List.countP_cons]
          omega
      | succ n =>
          rw [List.get?_cons_succ] at h
          simp only [setTaskState, List.countP_cons]
          have := ih n s t h
          omega

lemma countP_setTaskState_le (u : Str) (l : List CTask) (i : Nat) (s : TState)
    (t : CTask) (hget : l.get? i = some t) (hs : s ≠ TState.start) :
    ((setTaskState l i s).countP
        (fun c => decide (c.url = u ∧ c.state = TState.start)) ≤
      l.countP (fun c => decide (c.url = u ∧ c.state = TState.start)))
    ∧ (t.url = u → t.state = TState.start →
        (setTaskState l i s).countP
            (fun c => decide (c.url = u ∧ c.state = TState.start)) + 1 ≤
          l.countP (fun c => decide (c.url = u ∧ c.state = TState.start))) := by
  have h := countP_setTaskState
    (fun c => decide (c.url = u ∧ c.state = TState.start)) l i s t hget
  have h2 : ((fun c : CTask => decide (c.url = u ∧ c.state = TState.start))
      { t with state := s }) = false := by
    simp [hs]
  rw [h2] at h
  simp only [Bool.false_eq_true, if_false] at h
  constructor
  · omega
  · intro hu hts
    simp only [hu, hts, and_self, decide_True, if_true] at h
    omega

lemma step_fetch_measure (u : Str) (st : CacheSys) (e : Event) :
    ((stepEvent st e).fetchLog).count u +
      (stepEvent st e).tasks.countP
        (fun c => decide (c.url = u ∧ c.state = TState.start)) ≤
      st.fetchLog.count u +
        st.tasks.countP (fun c => decide (c.url = u ∧ c.state = TState.start)) := by
  cases e with
  | run i =>
      cases hget : st.tasks.get? i with
      | none => simp only [stepEvent, hget]; exact le_refl _
      | some t =>
          cases ht : t.state with
          | start =>
              cases hcl : cacheLookup st.cache t.url with
              | some v =>
                  simp only [stepEvent, hget, ht, hcl]
                  have hle := (countP_setTaskState_le u st.tasks i (TState.done v)
                    t hget (by simp)).1
                  omega
              | none =>
                  simp only [stepEvent, hget, ht, hcl]
                  rw [List.count_append]
                  have hle := countP_setTaskState_le u st.tasks i TState.waiting
                    t hget (by simp)
                  by_cases hu : t.url = u
                  · have hone : List.count u [t.url] = 1 := by
                      rw [List.count_cons, List.count_nil]
                      simp [hu]
                    have := hle.2 hu ht
                    omega
                  · have hzero : List.count u [t.url] = 0 := by
                      rw [List.count_cons, List.count_nil]
                      simp [hu]
                    have := hle.1
                    omega
          | waiting => simp only [stepEvent, hget, ht]; exact le_refl _
          | done r => simp only [stepEvent, hget, ht]; exact le_refl _
  | deliver i resp =>
      cases hget : st.tasks.get? i with
      | none => simp only [stepEvent, hget]; exact le_refl _
      | some t =>
          cases ht : t.state with
          | start => simp only [stepEvent, hget, ht]; exact le_refl _
          | waiting =>
              simp only [stepEvent, hget, ht]
              have hle := (countP_setTaskState_le u st.tasks i (TState.done resp)
                t hget (by simp)).1
              omega
          | done r => simp only [stepEvent, hget, ht]; exact le_refl _

lemma runEvents_fetch_measure (u : Str) :
    ∀ (es : List Event) (st : CacheSys),
      ((runEvents es st).fetchLog).count u +
        (runEvents es st).tasks.countP
          (fun t => decide (t.url = u ∧ t.state = TState.start)) ≤
        st.fetchLog.count u +
          st.tasks.countP (fun t => decide (t.url = u ∧ t.state = TState.start)) := by
  intro es
  induction es with
  | nil => intro st; exact le_refl _
  | cons e rest ih =>
      intro st
      have h1 : runEvents (e :: rest) st = runEvents rest (stepEvent st e) := rfl
      rw [h1]
      exact le_trans (ih (stepEvent st e)) (step_fetch_measure u st e)

/-- C1 counterexample: two concurrent first-time lookups of the same URL
each miss the cache before either response arrives, so the fetcher is
invoked twice for that URL, and when the two responses carry different
statuses the two callers observe different results. -/
theorem C1_duplicate_fetch_counterexample :
    ((runEvents [Event.run 0, Event.run 1, Event.deliver 0 (some 200),
        Event.deliver 1 (some 500)] c1Init).fetchLog).count c1Url = 2
    ∧ (runEvents [Event.run 0, Event.run 1, Event.deliver 0 (some 200),
        Event.deliver 1 (some 500)] c1Init).tasks =
        [⟨c1Url, TState.done (some 200)⟩, ⟨c1Url, TState.done (some 500)⟩]
    ∧ TState.done (some 200) ≠ TState.done (some 500) := by
  exact ⟨by decide, by decide, by decide⟩

/-- C1 (amended): each concurrent caller invokes the fetcher at most once,
so the number of fetches of a URL is bounded by the number of callers for
it that have not yet passed their cache check (for N concurrent first-time
callers, at most N fetches, not at most one); and a caller whose cache
check finds an entry performs no fetch and finishes with the memoized
status. -/
theorem C1_fetch_per_caller_bound :
    ∀ (es : List Event) (st : CacheSys) (u : Str),
      ((runEvents es st).fetchLog).count u ≤
        st.fetchLog.count u +
          st.tasks.countP (fun t => decide (t.url = u ∧ t.state = TState.start))
      ∧ (∀ (i : Nat) (t : CTask) (v : Option Nat),
          st.tasks.get? i = some t → t.state = TState.start →
          cacheLookup st.cache t.url = some v →
          (stepEvent st (Event.run i)).fetchLog = st.fetchLog ∧
          (stepEvent st (Event.run i)).tasks.get? i =
            some ⟨t.url, TState.done v⟩) := by
  intro es st u
  constructor
  · have := runEvents_fetch_measure u es st
    omega
  · intro i t v hget hstate hcl
    simp only [stepEvent, hget, hstate, hcl]
    exact ⟨by trivial, get_setTaskState st.tasks i (TState.done v) t hget⟩

/-- C1 witness: the amended theorem at the concrete cached-caller system:
running the caller performs no fetch. -/
theorem C1_fetch_per_caller_bound_witness :
    ((runEvents [Event.run 0] c1CachedInit).fetchLog).count c1Url ≤
      (c1CachedInit.fetchLog).count c1Url +
        c1CachedInit.tasks.countP
          (fun t => decide (t.url = c1Url ∧ t.state = TState.start))
    ∧ (stepEvent c1CachedInit (Event.run 0)).fetchLog = c1CachedInit.fetchLog :=
  ⟨(C1_fetch_per_caller_bound [Event.run 0] c1CachedInit c1Url).1,
   (((C1_fetch_per_caller_bound [] c1CachedInit c1Url).2 0
      ⟨c1Url, TState.start⟩ (some 200) (by decide) (by decide) (by decide))).1⟩

end SeoAudit
